import Mathlib

/-!
Verification of the cartridge (de)serialization core of pico-build-rs.

The development shallowly embeds the byte-level scanners (`bytes` crate),
the header recognizer (`header.rs`), and the cart model
(`pico-8/cart-model`): section-delimiter scanning, section slicing,
the cartridge builder fold, the code-tab splitter and the serializer.

Bytes are modelled as natural numbers (only equality against constants is
ever used by the code, so no wrap-around arithmetic occurs).  Fallible or
panicking Rust code is modelled with `Option`/`Except`: `none` /
`Except.error ()` marks a panic, `Except.ok none` marks an error return.
-/

abbrev Byte := Nat

/-! ### bytes crate: `find_index_of_element_const`, `splitln_const`, `NewlineIter` -/

/-- Model of `find_index_of_element_const`: index of the first occurrence of
`byte` in `src`. -/
def find_index_of_element_const : List Byte → Byte → Option Nat
  | [], _ => none
  | x :: xs, b => if x = b then some 0 else (find_index_of_element_const xs b).map (· + 1)

/-- Model of `splitln_const`: split after the first newline byte; the newline
stays in the first component.  The bound check mirrors `split_at_checked`. -/
def splitln_const (src : List Byte) : Option (List Byte × List Byte) :=
  match find_index_of_element_const src 10 with
  | none => none
  | some i =>
    if i + 1 ≤ src.length then some (src.take (i + 1), src.drop (i + 1)) else none

/-- Fuel-driven run of `NewlineIter`: the list of all lines yielded by
repeatedly calling `next_const`.  A trailing unterminated line is yielded
only when non-empty. -/
def newlineLinesF : Nat → List Byte → List (List Byte)
  | 0, _ => []
  | fuel + 1, src =>
    match splitln_const src with
    | none => if src = [] then [] else [src]
    | some (line, rest) => line :: newlineLinesF fuel rest

/-- All lines yielded by `NewlineIter::new(src)` driven to completion. -/
def newlineLines (src : List Byte) : List (List Byte) :=
  newlineLinesF (src.length + 1) src

/-! ### bytes crate: `find_sequence` and `TabIter` -/

/-- The 4-byte tab separator `b"-->8"` (`TAB_SEQUENCE` in the `bytes`
crate). -/
def TAB_SEQUENCE : List Byte := [45, 45, 62, 56]

/-- Model of the naive sliding-window search used both by `find_sequence`
and inline in `TabIter::next` (index of the first window equal to `seq`;
only ever called with the non-empty `TAB_SEQUENCE`). -/
def find_sequence : List Byte → List Byte → Option Nat
  | [], _ => none
  | x :: xs, seq =>
    if (x :: xs).take seq.length = seq then some 0
    else (find_sequence xs seq).map (· + 1)

/-- One call of `TabIter::next` on a non-fused state.  Returns the yielded
span together with the next state (`none` state = fused).  The outer `none`
models the panic of `remainder.split_at(TAB_SEQUENCE.len() + 1)` when fewer
than 5 bytes remain after the separator's start. -/
def tabIterStep (src : List Byte) : Option (List Byte × Option (List Byte)) :=
  match find_sequence src TAB_SEQUENCE with
  | none => some (src, none)
  | some i =>
    let remainder := src.drop i
    if TAB_SEQUENCE.length + 1 ≤ remainder.length then
      some (src.take i, some (remainder.drop (TAB_SEQUENCE.length + 1)))
    else none

/-- Fuel-driven full run of `TabIter`; `none` models a panic while
advancing the iterator. -/
def tabIterRunF : Nat → List Byte → Option (List (List Byte))
  | 0, _ => none
  | fuel + 1, src =>
    match find_sequence src TAB_SEQUENCE with
    | none => some [src]
    | some i =>
      if i + 5 ≤ src.length then
        (tabIterRunF fuel (src.drop (i + 5))).map (src.take i :: ·)
      else none

/-- All spans yielded by `TabIter::new(src)` driven to completion;
`none` models a panic. -/
def tabIterRun (src : List Byte) : Option (List (List Byte)) :=
  tabIterRunF (src.length + 1) src

/-! ### cart-model: section types, markers, line classification -/

/-- Model of `SectionType` (section.rs). -/
inductive SectionType where
  | Lua | Gfx | Gff | Label | Map | Sfx | Music
deriving DecidableEq

/-- The canonical marker string of each section type, as bytes
(`impl From<&SectionType> for &'static str`). -/
def sectionMarker : SectionType → List Byte
  | .Lua => [95, 95, 108, 117, 97, 95, 95]
  | .Gfx => [95, 95, 103, 102, 120, 95, 95]
  | .Gff => [95, 95, 103, 102, 102, 95, 95]
  | .Label => [95, 95, 108, 97, 98, 101, 108, 95, 95]
  | .Map => [95, 95, 109, 97, 112, 95, 95]
  | .Sfx => [95, 95, 115, 102, 120, 95, 95]
  | .Music => [95, 95, 109, 117, 115, 105, 99, 95, 95]

/-- The fixed enumeration order of `SECTION_TYPES` (section.rs). -/
def SECTION_TYPES : List SectionType :=
  [.Lua, .Gfx, .Gff, .Label, .Map, .Sfx, .Music]

/-- Model of `get_line_type`: the first section type whose marker is a byte
prefix of the line. -/
def get_line_type (line : List Byte) : Option SectionType :=
  SECTION_TYPES.find? fun t => (sectionMarker t).isPrefixOf line

/-- Model of `SectionDelimiter` (section.rs). -/
structure SectionDelimiter where
  type : SectionType
  line_number : Nat
  byte_offset : Nat
deriving DecidableEq

/-! ### cart-model: `get_section_delimiters` -/

/-- Loop of `get_section_delimiters`: walk the lines, classify each,
thread the enumeration index and the running byte offset.  `lineNumBase`
is `line_number_offset.unwrap_or_default() + 1`. -/
def sectionDelimitersGo (lineNumBase : Nat) :
    List (List Byte) → Nat → Nat → List SectionDelimiter
  | [], _, _ => []
  | line :: rest, lineIdx, byteOff =>
    match get_line_type line with
    | some t =>
      ⟨t, lineIdx + lineNumBase, byteOff⟩ ::
        sectionDelimitersGo lineNumBase rest (lineIdx + 1) (byteOff + line.length)
    | none => sectionDelimitersGo lineNumBase rest (lineIdx + 1) (byteOff + line.length)

/-- Model of `get_section_delimiters`. -/
def get_section_delimiters (cart_src : List Byte) (line_number_offset : Option Nat) :
    List SectionDelimiter :=
  sectionDelimitersGo (line_number_offset.getD 0 + 1) (newlineLines cart_src) 0 0

/-! ### cart-model: sorting and `get_sections` -/

/-- Stable insertion of a delimiter after all entries with a smaller or
equal line number; `sortDelims` below is then exactly the stable sort by
`line_number` that `Vec::sort` performs. -/
def insertDelim (d : SectionDelimiter) : List SectionDelimiter → List SectionDelimiter
  | [] => [d]
  | e :: rest =>
    if e.line_number ≤ d.line_number then e :: insertDelim d rest else d :: e :: rest

/-- Stable sort by `line_number` (the `Ord for SectionDelimiter` key). -/
def sortDelims (ds : List SectionDelimiter) : List SectionDelimiter :=
  ds.foldl (fun acc d => insertDelim d acc) []

/-- Model of a `Section` view (section.rs): type, marker line number, and
the data span. -/
structure Section where
  type : SectionType
  line_number : Nat
  data : List Byte
deriving DecidableEq

/-- Model of `slice.get(a..)` on byte slices. -/
def sliceFrom (src : List Byte) (a : Nat) : Option (List Byte) :=
  if a ≤ src.length then some (src.drop a) else none

/-- Model of `slice.get(a..b)` on byte slices. -/
def sliceRange (src : List Byte) (a b : Nat) : Option (List Byte) :=
  if a ≤ b ∧ b ≤ src.length then some ((src.drop a).take (b - a)) else none

/-- The `offset_without_type_marker` of a delimiter: byte offset plus
marker length plus one (the marker line's own newline). -/
def contentStart (d : SectionDelimiter) : Nat :=
  d.byte_offset + (sectionMarker d.type).length + 1

/-- Loop of `get_sections`: the (already reversed) sorted delimiters are
walked with a reverse-enumeration index and the `next_section_offset`
accumulator, which is updated only after a successful slice. -/
def sectionsGo (cart_src : List Byte) :
    List SectionDelimiter → Nat → Nat → List Section
  | [], _, _ => []
  | d :: rest, idx, nextOff =>
    match (if idx = 0
           then sliceFrom cart_src (contentStart d)
           else sliceRange cart_src (contentStart d) nextOff) with
    | none => sectionsGo cart_src rest (idx + 1) nextOff
    | some data =>
      ⟨d.type, d.line_number, data⟩ :: sectionsGo cart_src rest (idx + 1) d.byte_offset

/-- Model of `get_sections`: sort, reverse, then slice with the
reverse-enumeration index. -/
def get_sections (cart_src : List Byte) (delimiters : List SectionDelimiter) :
    List Section :=
  sectionsGo cart_src (sortDelims delimiters).reverse 0 0

/-! ### claim-following forward slicer (for C7) -/

/-- Forward one-lookahead slicer following the words of the spec and of
claim C7: each delimiter's section ends at the next delimiter's byte
offset (end of buffer for the last); a delimiter whose range is invalid is
dropped without affecting the others.  Stated for comparison with
`get_sections`. -/
def claimGo (src : List Byte) : List SectionDelimiter → List Section
  | [] => []
  | [d] =>
    match sliceFrom src (contentStart d) with
    | some data => [⟨d.type, d.line_number, data⟩]
    | none => []
  | d :: d2 :: rest =>
    (match sliceRange src (contentStart d) d2.byte_offset with
     | some data => [⟨d.type, d.line_number, data⟩]
     | none => []) ++ claimGo src (d2 :: rest)

/-- The claim-following slicer applied to the sorted delimiters (forward
document order). -/
def claimSections (src : List Byte) (ds : List SectionDelimiter) : List Section :=
  claimGo src (sortDelims ds)

/-- Every delimiter's computed range is valid: its content start is at most
the next delimiter's byte offset (resp. the buffer length for the last
delimiter), and that end is within the buffer. -/
def fwdRangesOk (len : Nat) : List SectionDelimiter → Bool
  | [] => true
  | [d] => decide (contentStart d ≤ len)
  | d :: d2 :: rest =>
    (decide (contentStart d ≤ d2.byte_offset) && decide (d2.byte_offset ≤ len))
      && fwdRangesOk len (d2 :: rest)

/-- `sectionsGo` at a non-zero index: the end-of-buffer branch never fires,
so the index argument is irrelevant. -/
def sgPos (src : List Byte) : List SectionDelimiter → Nat → List Section
  | [], _ => []
  | d :: rest, nextOff =>
    match sliceRange src (contentStart d) nextOff with
    | none => sgPos src rest nextOff
    | some data => ⟨d.type, d.line_number, data⟩ :: sgPos src rest d.byte_offset

/-- The `next_section_offset` accumulator value after `sgPos` has walked
the list. -/
def sgThread (src : List Byte) : List SectionDelimiter → Nat → Nat
  | [], nextOff => nextOff
  | d :: rest, nextOff =>
    if (sliceRange src (contentStart d) nextOff).isSome then sgThread src rest d.byte_offset
    else sgThread src rest nextOff

/-! ### cart-model: tabs -/

/-- Model of `Tab`: starting line number and code bytes. -/
structure Tab where
  line_number : Nat
  code_data : List Byte
deriving DecidableEq

/-- `P8_MAX_CODE_EDITOR_TAB_COUNT` (cart-model lib.rs). -/
def P8_MAX_CODE_EDITOR_TAB_COUNT : Nat := 16

/-- Loop body of `get_code_tabs_from_lua_section`: for each yielded span,
build the `Tab` with the current running line number, then (for a non-zero
index) add 1 for the separator line, store, and add the span's line count.
The array write `tabs[tab_index] = Some(tab)` panics (`none`) when the
index reaches the fixed capacity. -/
def codeTabsGo : List (List Byte) → Nat → Nat → List (Option Tab) → Option (List (Option Tab))
  | [], _, _, tabs => some tabs
  | tab_data :: rest, line_number, tab_index, tabs =>
    if tab_index < P8_MAX_CODE_EDITOR_TAB_COUNT then
      let tab : Tab := ⟨line_number, tab_data⟩
      let ln2 := if tab_index ≠ 0 then line_number + 1 else line_number
      codeTabsGo rest (ln2 + (newlineLines tab_data).length) (tab_index + 1)
        (tabs.set tab_index (some tab))
    else none

/-- Model of `get_code_tabs_from_lua_section`; `none` models a panic
(either in `TabIter` or in the out-of-bounds array write). -/
def get_code_tabs_from_lua_section (line_number : Nat) (section_data : List Byte) :
    Option (List (Option Tab)) :=
  (tabIterRun section_data).bind fun spans =>
    codeTabsGo spans (line_number + 1) 0 (List.replicate P8_MAX_CODE_EDITOR_TAB_COUNT none)

/-! ### cart-model: builder and cartridge -/

/-- Model of `CartDataBuilder`. -/
structure CartDataBuilder where
  label : Option (Nat × List Byte) := none
  gfx : Option (Nat × List Byte) := none
  gff : Option (Nat × List Byte) := none
  map : Option (Nat × List Byte) := none
  sfx : Option (Nat × List Byte) := none
  music : Option (Nat × List Byte) := none
  code_tabs : List (Option Tab) := List.replicate P8_MAX_CODE_EDITOR_TAB_COUNT none
deriving DecidableEq

/-- The fold of `FromIterator<Section> for CartDataBuilder`: later sections
overwrite earlier ones slot-wise; a Lua section replaces the whole tab
array via the tab splitter (whose panic propagates). -/
def builderFold : List Section → CartDataBuilder → Option CartDataBuilder
  | [], acc => some acc
  | ⟨.Lua, line_number, section_data⟩ :: rest, acc =>
    (get_code_tabs_from_lua_section line_number section_data).bind fun tabs =>
      builderFold rest { acc with code_tabs := tabs }
  | ⟨.Gfx, line_number, section_data⟩ :: rest, acc =>
    builderFold rest { acc with gfx := some (line_number, section_data) }
  | ⟨.Gff, line_number, section_data⟩ :: rest, acc =>
    builderFold rest { acc with gff := some (line_number, section_data) }
  | ⟨.Label, line_number, section_data⟩ :: rest, acc =>
    builderFold rest { acc with label := some (line_number, section_data) }
  | ⟨.Map, line_number, section_data⟩ :: rest, acc =>
    builderFold rest { acc with map := some (line_number, section_data) }
  | ⟨.Sfx, line_number, section_data⟩ :: rest, acc =>
    builderFold rest { acc with sfx := some (line_number, section_data) }
  | ⟨.Music, line_number, section_data⟩ :: rest, acc =>
    builderFold rest { acc with music := some (line_number, section_data) }

/-- `CartDataBuilder::from_iter` over a section list. -/
def builderFromSections (ss : List Section) : Option CartDataBuilder :=
  builderFold ss {}

/-- Model of `CartData`.  `gfx` is the only mandatory asset. -/
structure CartData where
  header : List Byte
  label : Option (Nat × List Byte)
  code_tabs : List (Option Tab)
  gfx : Nat × List Byte
  gff : Option (Nat × List Byte)
  map : Option (Nat × List Byte)
  sfx : Option (Nat × List Byte)
  music : Option (Nat × List Byte)
deriving DecidableEq

/-- Model of `CartDataBuilder::build_with`: fails exactly when the gfx slot
was never filled. -/
def build_with (b : CartDataBuilder) (header : List Byte) : Option CartData :=
  b.gfx.map fun g => ⟨header, b.label, b.code_tabs, g, b.gff, b.map, b.sfx, b.music⟩

/-- The builder's slot for a given (non-Lua) asset section type; used to
state the fold lemmas uniformly. -/
def slotOf : SectionType → CartDataBuilder → Option (Nat × List Byte)
  | .Lua, _ => none
  | .Gfx, b => b.gfx
  | .Gff, b => b.gff
  | .Label, b => b.label
  | .Map, b => b.map
  | .Sfx, b => b.sfx
  | .Music, b => b.music

/-! ### header recognizer (header.rs) -/

/-- `CARTRIDGE_MARKER`: the literal signature line
`b"pico-8 cartridge // http://www.pico-8.com\n"`. -/
def CARTRIDGE_MARKER : List Byte :=
  [112, 105, 99, 111, 45, 56, 32, 99, 97, 114, 116, 114, 105, 100, 103, 101, 32, 47, 47,
   32, 104, 116, 116, 112, 58, 47, 47, 119, 119, 119, 46, 112, 105, 99, 111, 45, 56, 46,
   99, 111, 109, 10]

/-- One call of `NewlineIter::next_const` on a fresh iterator: the yielded
line and the successor state (`none` = fused). -/
def nlFirst (src : List Byte) : Option (List Byte × Option (List Byte)) :=
  match splitln_const src with
  | some (line, rest) => some (line, some rest)
  | none => if src = [] then none else some (src, none)

/-- Continuation-byte test of the UTF-8 well-formedness check below. -/
def utf8Cont (b : Byte) : Bool := 128 ≤ b && b ≤ 191

/-- Model of `core::str::from_utf8(..).is_ok()` (RFC 3629 well-formedness),
used by `split_from` on the version line. -/
def utf8Valid : List Byte → Bool
  | [] => true
  | b :: rest =>
    if b ≤ 127 then utf8Valid rest
    else if 194 ≤ b && b ≤ 223 then
      match rest with
      | c1 :: rest2 => utf8Cont c1 && utf8Valid rest2
      | [] => false
    else if b = 224 then
      match rest with
      | c1 :: c2 :: rest2 => (160 ≤ c1 && c1 ≤ 191) && utf8Cont c2 && utf8Valid rest2
      | _ => false
    else if 225 ≤ b && b ≤ 236 then
      match rest with
      | c1 :: c2 :: rest2 => utf8Cont c1 && utf8Cont c2 && utf8Valid rest2
      | _ => false
    else if b = 237 then
      match rest with
      | c1 :: c2 :: rest2 => (128 ≤ c1 && c1 ≤ 159) && utf8Cont c2 && utf8Valid rest2
      | _ => false
    else if 238 ≤ b && b ≤ 239 then
      match rest with
      | c1 :: c2 :: rest2 => utf8Cont c1 && utf8Cont c2 && utf8Valid rest2
      | _ => false
    else if b = 240 then
      match rest with
      | c1 :: c2 :: c3 :: rest2 =>
        (144 ≤ c1 && c1 ≤ 191) && utf8Cont c2 && utf8Cont c3 && utf8Valid rest2
      | _ => false
    else if 241 ≤ b && b ≤ 243 then
      match rest with
      | c1 :: c2 :: c3 :: rest2 => utf8Cont c1 && utf8Cont c2 && utf8Cont c3 && utf8Valid rest2
      | _ => false
    else if b = 244 then
      match rest with
      | c1 :: c2 :: c3 :: rest2 =>
        (128 ≤ c1 && c1 ≤ 143) && utf8Cont c2 && utf8Cont c3 && utf8Valid rest2
      | _ => false
    else false

/-- Model of `split_from` (header.rs).  The first yielded line is matched
against the constant pattern `CARTRIDGE_MARKER`; a mismatch is the
`panic!("encountered malformed cartridge marker in header")` path, modelled
as `Except.error ()`.  The final `split_at(header_len)` cannot fail because
the two lines are consecutive prefixes of the input, so it is modelled with
`take`/`drop`. -/
def split_from (src : List Byte) : Except Unit (Option (List Byte × List Byte)) :=
  match nlFirst src with
  | none => Except.ok none
  | some (line1, st) =>
    if line1 = CARTRIDGE_MARKER then
      match st.bind nlFirst with
      | none => Except.ok none
      | some (line2, _) =>
        if utf8Valid line2 then
          let header_len := line1.length + line2.length
          Except.ok (some (src.take header_len, src.drop header_len))
        else Except.ok none
    else Except.error ()

/-! ### cart-model: `from_cart_source` -/

/-- Model of `CartData::from_cart_source`: split the header, scan the
remainder for delimiters with a line offset of 2, slice, fold, build.
`Except.error ()` models a panic, `Except.ok none` the `io::Error`
return. -/
def from_cart_source (cart_src : List Byte) : Except Unit (Option CartData) :=
  match split_from cart_src with
  | Except.error () => Except.error ()
  | Except.ok none => Except.ok none
  | Except.ok (some (header, remainder)) =>
    match builderFromSections
        (get_sections remainder (get_section_delimiters remainder (some 2))) with
    | none => Except.error ()
    | some b => Except.ok (build_with b header)

deriving instance DecidableEq for Except

/-- Successful-parse extractor (used to state concrete evaluations). -/
def parseOk (cart_src : List Byte) : Option CartData :=
  match from_cart_source cart_src with
  | Except.ok (some c) => some c
  | _ => none

/-! ### cart-model: serializer (`into_cart_source`) -/

/-- Modelled from the spec: `SectionType::with_data`, referenced by the
serializer, has no definition under the sources provided; per spec 4.8
("marker + newline + data") it prepends the section marker line. -/
def with_data (t : SectionType) (data : List Byte) : List Byte :=
  sectionMarker t ++ 10 :: data

/-- The code-section bytes of `into_cart_source` step 2: each occupied tab
slot in index order; slot 0 verbatim, later slots prefixed with
`TAB_SEQUENCE` and a newline; absent slots contribute nothing. -/
def codeBytes (tabs : List (Option Tab)) : List Byte :=
  tabs.enum.flatMap fun io =>
    match io.2 with
    | none => []
    | some tab => if io.1 = 0 then tab.code_data else TAB_SEQUENCE ++ 10 :: tab.code_data

/-- An optional section slot as a (possibly empty) chunk list. -/
def optChunk (t : SectionType) : Option (Nat × List Byte) → List (SectionType × List Byte)
  | some nd => [(t, nd.2)]
  | none => []

/-- The marker-tagged chunks emitted by `into_cart_source`, in its fixed
order: Lua (only when the joined code bytes are non-empty), Gfx, Label,
Gff, Map, Sfx, Music. -/
def emitChunks (c : CartData) : List (SectionType × List Byte) :=
  (if codeBytes c.code_tabs = [] then [] else [(SectionType.Lua, codeBytes c.code_tabs)])
    ++ [(SectionType.Gfx, c.gfx.2)]
    ++ optChunk .Label c.label
    ++ optChunk .Gff c.gff
    ++ optChunk .Map c.map
    ++ optChunk .Sfx c.sfx
    ++ optChunk .Music c.music

/-- Model of `CartData::into_cart_source`: the header verbatim, then each
emitted chunk as marker line plus data. -/
def into_cart_source (c : CartData) : List Byte :=
  c.header ++ (emitChunks c).flatMap fun td => with_data td.1 td.2

/-! ### structural equality of cartridges (claim C1's notion) -/

/-- The tab contents by slot, line numbers erased. -/
def tabCodes (tabs : List (Option Tab)) : List (Option (List Byte)) :=
  tabs.map (Option.map Tab.code_data)

/-- The byte contents of an optional section, line number erased. -/
def secData (o : Option (Nat × List Byte)) : Option (List Byte) :=
  o.map Prod.snd

/-- Structural equality in the sense of claim C1: same header (hence same
version), same set of present optional sections with the same byte
contents, same tab contents in the same slots, same gfx bytes. -/
def structEq (c c2 : CartData) : Prop :=
  c.header = c2.header ∧ tabCodes c.code_tabs = tabCodes c2.code_tabs ∧
    c.gfx.2 = c2.gfx.2 ∧ secData c.label = secData c2.label ∧
    secData c.gff = secData c2.gff ∧ secData c.map = secData c2.map ∧
    secData c.sfx = secData c2.sfx ∧ secData c.music = secData c2.music

instance (c c2 : CartData) : Decidable (structEq c c2) := by
  unfold structEq; infer_instance

/-! ### auxiliary definitions used to state the claims -/

/-- The separator bytes the serializer re-inserts between tabs. -/
def sep5 : List Byte := TAB_SEQUENCE ++ [10]

/-- Re-join spans with the 4-byte separator plus one arbitrary byte per
boundary (the byte that `TabIter` consumed after each separator). -/
def glueSpans (pairs : List (List Byte × Byte)) (final : List Byte) : List Byte :=
  pairs.foldr (fun sb acc => sb.1 ++ TAB_SEQUENCE ++ sb.2 :: acc) final

/-- Join tab codes with the serializer's 5-byte separator. -/
def joinTabs : List (List Byte) → List Byte
  | [] => []
  | [sp] => sp
  | sp :: rest => sp ++ sep5 ++ joinTabs rest

/-- The `(ss.filter (type = t)).getLast?` slot value of a section list,
i.e. the value the builder fold leaves in slot `t` (when any). -/
def lastSec (t : SectionType) (ss : List Section) : Option (Nat × List Byte) :=
  ((ss.filter fun s => s.type == t).getLast?).map fun s => (s.line_number, s.data)

/-- Delimiters the scanner finds in an encoded chunk list, with running
line number and byte offset. -/
def chunkDelims : List (SectionType × List Byte) → Nat → Nat → List SectionDelimiter
  | [], _, _ => []
  | (t, d) :: rest, lnum, off =>
    ⟨t, lnum, off⟩ ::
      chunkDelims rest (lnum + 1 + (newlineLines d).length)
        (off + (with_data t d).length)

/-- The sections an encoded chunk list slices back into. -/
def chunkSections : List (SectionType × List Byte) → Nat → List Section
  | [], _ => []
  | (t, d) :: rest, lnum =>
    ⟨t, lnum, d⟩ :: chunkSections rest (lnum + 1 + (newlineLines d).length)

/-- No line of `d` starts with a section marker. -/
def cleanLines (d : List Byte) : Bool :=
  (newlineLines d).all fun l => (get_line_type l).isNone

/-- `d` is empty or ends with a newline byte. -/
def nlTerminated (d : List Byte) : Bool :=
  d.isEmpty || d.getLast? == some 10

/-- Well-formedness of a chunk list: every chunk's data has no
marker-prefixed line and is empty or newline-terminated. -/
def chunkListOk (chunks : List (SectionType × List Byte)) : Bool :=
  chunks.all fun td => cleanLines td.2 && nlTerminated td.2

/-- The cartridge's occupied tab slots are not exactly a single empty
slot 0 (the degenerate case in which the serializer drops the code section
that the parser had represented). -/
def tabsNonDegenerate (c : CartData) : Bool :=
  !(codeBytes c.code_tabs).isEmpty || c.code_tabs.all fun o => o.isNone

/-! ### concrete inputs for counterexamples and witnesses -/

/-- The version line `b"version 43\n"`. -/
def versionLine : List Byte := [118, 101, 114, 115, 105, 111, 110, 32, 52, 51, 10]

/-- `b"a-->8\nb"`. -/
def c4cex : List Byte := [97, 45, 45, 62, 56, 10, 98]

/-- A Lua section body with 20 separator tokens (hence 21 spans). -/
def c2data : List Byte := (List.replicate 20 sep5).flatten

/-- The Lua section body `print("a")\n-->8\nprint("b")\n` of the spec's
concrete scenario. -/
def c9data : List Byte :=
  [112, 114, 105, 110, 116, 40, 34, 97, 34, 41, 10, 45, 45, 62, 56, 10,
   112, 114, 105, 110, 116, 40, 34, 98, 34, 41, 10]

/-- `b"hello\nversion 43\n"`: two well-formed lines whose first is not the
signature. -/
def c5cex : List Byte := [104, 101, 108, 108, 111, 10] ++ versionLine

/-- Post-header buffer `__gfx__\n0011\n__map__` whose final marker line
has no trailing newline. -/
def c7buf : List Byte :=
  [95, 95, 103, 102, 120, 95, 95, 10, 48, 48, 49, 49, 10, 95, 95, 109, 97, 112, 95, 95]

/-- A full source with two `__gfx__` sections, `aa\n` then `bb\n`. -/
def c8src : List Byte :=
  CARTRIDGE_MARKER ++ versionLine ++
    [95, 95, 103, 102, 120, 95, 95, 10, 97, 97, 10, 95, 95, 103, 102, 120, 95, 95, 10,
     98, 98, 10]

/-- A full source with an empty `__lua__` section followed by a gfx
section `x\n`. -/
def c1cex : List Byte :=
  CARTRIDGE_MARKER ++ versionLine ++
    [95, 95, 108, 117, 97, 95, 95, 10, 95, 95, 103, 102, 120, 95, 95, 10, 120, 10]

/-- A full source with a label section `LL\n` followed by a final gfx
section `GG` with no trailing newline. -/
def c1cex2 : List Byte :=
  CARTRIDGE_MARKER ++ versionLine ++
    [95, 95, 108, 97, 98, 101, 108, 95, 95, 10, 76, 76, 10,
     95, 95, 103, 102, 120, 95, 95, 10, 71, 71]

/-- A full source whose `__lua__` body is `foo-->8x__gfx__bar\n` (the byte
after the separator is not a newline), followed by a gfx section `00\n`. -/
def c1cex3 : List Byte :=
  CARTRIDGE_MARKER ++ versionLine ++
    [95, 95, 108, 117, 97, 95, 95, 10, 102, 111, 111, 45, 45, 62, 56, 120,
     95, 95, 103, 102, 120, 95, 95, 98, 97, 114, 10,
     95, 95, 103, 102, 120, 95, 95, 10, 48, 48, 10]

/-- The spec's concrete scenario: header, two tabs, gfx `0011\n`. -/
def c1wit : List Byte :=
  CARTRIDGE_MARKER ++ versionLine ++
    [95, 95, 108, 117, 97, 95, 95, 10, 112, 114, 105, 110, 116, 40, 34, 97, 34, 41, 10,
     45, 45, 62, 56, 10, 112, 114, 105, 110, 116, 40, 34, 98, 34, 41, 10, 95, 95, 103,
     102, 120, 95, 95, 10, 48, 48, 49, 49, 10]

/-- A full source with a valid header and a single gfx section. -/
def c6src : List Byte :=
  CARTRIDGE_MARKER ++ versionLine ++
    [95, 95, 103, 102, 120, 95, 95, 10, 48, 48, 49, 49, 10]

/-- A full source with a valid header and no section markers at all. -/
def c6noMarkers : List Byte :=
  CARTRIDGE_MARKER ++ versionLine ++ [104, 101, 108, 108, 111, 10]

/-- The buffer is exactly a well-formed two-line header: the signature
line is a literal prefix, and the rest is a single newline-terminated
UTF-8-decodable line (its only newline byte at the very end). -/
def headerOk (h : List Byte) : Bool :=
  CARTRIDGE_MARKER.isPrefixOf h &&
    (find_index_of_element_const (h.drop CARTRIDGE_MARKER.length) 10
      == some ((h.drop CARTRIDGE_MARKER.length).length - 1)) &&
    utf8Valid (h.drop CARTRIDGE_MARKER.length)

/-- The cartridge of the spec's concrete scenario: two code tabs
(`print("a")` and `print("b")`) and the gfx asset `0011`. -/
def c1cart : CartData :=
  ⟨CARTRIDGE_MARKER ++ versionLine, none,
    [some ⟨4, [112, 114, 105, 110, 116, 40, 34, 97, 34, 41, 10]⟩,
     some ⟨6, [112, 114, 105, 110, 116, 40, 34, 98, 34, 41, 10]⟩] ++
      List.replicate 14 none,
    (7, [48, 48, 49, 49, 10]), none, none, none, none⟩

/-! ## Theorems -/

/-! ### the newline scanner -/

theorem find_index_eq_none {src : List Byte} {b : Byte} :
    find_index_of_element_const src b = none ↔ b ∉ src := by
  induction src with
  | nil => simp [find_index_of_element_const]
  | cons x xs ih =>
    simp only [find_index_of_element_const]
    by_cases hx : x = b
    · subst hx; simp
    · have hbx : ¬b = x := fun h => hx h.symm
      rw [if_neg hx, Option.map_eq_none', ih]
      simp [List.mem_cons, hbx]

theorem find_index_lt {src : List Byte} {b : Byte} {i : Nat}
    (h : find_index_of_element_const src b = some i) : i < src.length := by
  induction src generalizing i with
  | nil => simp [find_index_of_element_const] at h
  | cons x xs ih =>
    by_cases hx : x = b
    · simp [find_index_of_element_const, hx] at h
      simp only [List.length_cons]; omega
    · simp [find_index_of_element_const, hx] at h
      obtain ⟨j, hj, rfl⟩ := h
      have := ih hj
      simp only [List.length_cons]; omega

theorem find_index_take {src : List Byte} {b : Byte} {i : Nat}
    (h : find_index_of_element_const src b = some i) :
    src.take (i + 1) = src.take i ++ [b] ∧ b ∉ src.take i := by
  induction src generalizing i with
  | nil => simp [find_index_of_element_const] at h
  | cons x xs ih =>
    by_cases hx : x = b
    · simp [find_index_of_element_const, hx] at h
      subst hx; simp [← h]
    · simp [find_index_of_element_const, hx] at h
      obtain ⟨j, hj, rfl⟩ := h
      obtain ⟨h1, h2⟩ := ih hj
      refine ⟨by simp [h1], ?_⟩
      simp only [List.take_succ_cons, List.mem_cons]
      exact fun hc => hc.elim (fun heq => hx heq.symm) h2

theorem splitln_eq_none {src : List Byte} :
    splitln_const src = none ↔ 10 ∉ src := by
  constructor
  · intro h hmem
    cases hf : find_index_of_element_const src 10 with
    | none => exact (find_index_eq_none.mp hf) hmem
    | some i =>
      have hi := find_index_lt hf
      have hle : i + 1 ≤ src.length := hi
      simp [splitln_const, hf, hle] at h
  · intro h
    simp [splitln_const, find_index_eq_none.mpr h]

theorem splitln_eq_some {src l r : List Byte}
    (h : splitln_const src = some (l, r)) :
    src = l ++ r ∧ ∃ l2, l = l2 ++ [10] ∧ 10 ∉ l2 := by
  unfold splitln_const at h
  cases hf : find_index_of_element_const src 10 with
  | none => simp [hf] at h
  | some i =>
    have hi := find_index_lt hf
    have hle : i + 1 ≤ src.length := hi
    simp [hf, hle] at h
    obtain ⟨rfl, rfl⟩ := h
    obtain ⟨h1, h2⟩ := find_index_take hf
    exact ⟨(List.take_append_drop (i + 1) src).symm, src.take i, h1, h2⟩

theorem splitln_shrink {src l r : List Byte}
    (h : splitln_const src = some (l, r)) : r.length < src.length := by
  obtain ⟨hsrc, l2, rfl, -⟩ := splitln_eq_some h
  subst hsrc; simp; omega

theorem newlineLinesF_succ_none {fuel : Nat} {src : List Byte}
    (h : splitln_const src = none) :
    newlineLinesF (fuel + 1) src = if src = [] then [] else [src] := by
  simp only [newlineLinesF, h]

theorem newlineLinesF_succ_some {fuel : Nat} {src l r : List Byte}
    (h : splitln_const src = some (l, r)) :
    newlineLinesF (fuel + 1) src = l :: newlineLinesF fuel r := by
  simp only [newlineLinesF, h]

theorem newlineLines_of_none {src : List Byte} (h : splitln_const src = none) :
    newlineLines src = if src = [] then [] else [src] := by
  unfold newlineLines
  rw [newlineLinesF_succ_none h]

theorem newlineLines_nil : newlineLines [] = [] := by
  rw [newlineLines_of_none (splitln_eq_none.mpr (by simp))]; simp

theorem newlineLinesF_fuel : ∀ {src : List Byte} {fuel : Nat},
    src.length ≤ fuel → newlineLinesF fuel src = newlineLines src := by
  intro src
  generalize hn : src.length = n
  induction n using Nat.strong_induction_on generalizing src with
  | _ n ih =>
    intro fuel hlen
    subst hn
    cases hs : splitln_const src with
    | none =>
      match fuel, hlen with
      | 0, hlen =>
        have hsrc : src = [] := List.length_eq_zero.mp (by omega)
        subst hsrc
        rw [newlineLines_nil]; rfl
      | f + 1, hlen =>
        rw [newlineLinesF_succ_none hs, newlineLines_of_none hs]
    | some lr =>
      obtain ⟨l, r⟩ := lr
      have hr : r.length < src.length := splitln_shrink hs
      match fuel, hlen with
      | 0, hlen =>
        have hsrc : src = [] := List.length_eq_zero.mp (by omega)
        subst hsrc
        simp [splitln_const, find_index_of_element_const] at hs
      | f + 1, hlen =>
        rw [newlineLinesF_succ_some hs]
        unfold newlineLines
        rw [newlineLinesF_succ_some hs]
        rw [@ih r.length hr r rfl f (by omega), @ih r.length hr r rfl src.length (by omega)]

theorem newlineLines_of_some {src l r : List Byte} (h : splitln_const src = some (l, r)) :
    newlineLines src = l :: newlineLines r := by
  have hr := splitln_shrink h
  unfold newlineLines
  rw [newlineLinesF_succ_some h, @newlineLinesF_fuel r src.length (by omega)]
  rfl

theorem newlineLines_flatten (src : List Byte) :
    (newlineLines src).flatten = src := by
  generalize hn : src.length = n
  induction n using Nat.strong_induction_on generalizing src with
  | _ n ih =>
    cases hs : splitln_const src with
    | none =>
      rw [newlineLines_of_none hs]
      by_cases hsrc : src = [] <;> simp [hsrc]
    | some lr =>
      obtain ⟨l, r⟩ := lr
      have hr : r.length < src.length := splitln_shrink hs
      rw [newlineLines_of_some hs]
      obtain ⟨heq, -⟩ := splitln_eq_some hs
      subst hn
      simp [ih r.length (by omega) r rfl, ← heq]

theorem newlineLines_length (src : List Byte) :
    (newlineLines src).length =
      src.count 10 + (if src ≠ [] ∧ src.getLast? ≠ some 10 then 1 else 0) := by
  generalize hn : src.length = n
  induction n using Nat.strong_induction_on generalizing src with
  | _ n ih =>
    cases hs : splitln_const src with
    | none =>
      rw [newlineLines_of_none hs]
      have hnot : 10 ∉ src := splitln_eq_none.mp hs
      by_cases hsrc : src = []
      · simp [hsrc]
      · have hcount : src.count 10 = 0 := List.count_eq_zero.mpr hnot
        have hlast : src.getLast? ≠ some 10 := fun hl =>
          hnot (List.mem_of_getLast?_eq_some hl)
        simp [hsrc, hcount, hlast]
    | some lr =>
      obtain ⟨l, r⟩ := lr
      have hrlen : r.length < src.length := splitln_shrink hs
      rw [newlineLines_of_some hs]
      obtain ⟨heq, l2, hl, hnot2⟩ := splitln_eq_some hs
      subst hn
      have ihr := ih r.length (by omega) r rfl
      subst heq; subst hl
      have hc2 : l2.count 10 = 0 := List.count_eq_zero.mpr hnot2
      by_cases hrne : r = []
      · subst hrne
        have hlast : ((l2 ++ [10]) ++ ([] : List Byte)).getLast? = some 10 := by
          simp [List.getLast?_concat]
        simp [ihr, List.count_append, hc2, hlast, newlineLines_nil]
      · have hlast : (l2 ++ [10] ++ r).getLast? = r.getLast? :=
          List.getLast?_append_of_ne_nil _ hrne
        have hne : l2 ++ [10] ++ r ≠ [] := by simp
        rw [List.length_cons, ihr, hlast]
        simp only [List.count_append, hc2, hne, ne_eq, not_false_eq_true, true_and, hrne]
        by_cases hrl : r.getLast? = some 10 <;> simp [hrl, List.count_cons] <;> omega

/-- Claim C3: for every byte buffer, concatenating all lines yielded by the
newline scanner reconstructs the buffer exactly, and the number of yielded
lines equals the number of newline bytes, plus one more exactly when the
buffer is non-empty and does not end with a newline byte. -/
theorem claim_c3 (src : List Byte) :
    (newlineLines src).flatten = src ∧
      (newlineLines src).length =
        src.count 10 + (if src ≠ [] ∧ src.getLast? ≠ some 10 then 1 else 0) :=
  ⟨newlineLines_flatten src, newlineLines_length src⟩

/-! ### the tab scanner -/

theorem find_sequence_bound {src seq : List Byte} {i : Nat}
    (h : find_sequence src seq = some i) :
    i + seq.length ≤ src.length ∧ (src.drop i).take seq.length = seq := by
  induction src generalizing i with
  | nil => simp [find_sequence] at h
  | cons x xs ih =>
    by_cases hx : (x :: xs).take seq.length = seq
    · simp [find_sequence, hx] at h
      subst h
      refine ⟨?_, by simpa using hx⟩
      have : seq.length = min seq.length (x :: xs).length := by
        rw [← hx]; simp
      omega
    · simp [find_sequence, hx] at h
      obtain ⟨j, hj, rfl⟩ := h
      obtain ⟨h1, h2⟩ := ih hj
      refine ⟨by simp only [List.length_cons]; omega, ?_⟩
      simpa using h2

theorem tabIterRunF_succ_none {fuel : Nat} {src : List Byte}
    (h : find_sequence src TAB_SEQUENCE = none) :
    tabIterRunF (fuel + 1) src = some [src] := by
  simp only [tabIterRunF, h]

theorem tabIterRunF_succ_some {fuel : Nat} {src : List Byte} {i : Nat}
    (h : find_sequence src TAB_SEQUENCE = some i) :
    tabIterRunF (fuel + 1) src =
      if i + 5 ≤ src.length then
        (tabIterRunF fuel (src.drop (i + 5))).map (src.take i :: ·)
      else none := by
  simp only [tabIterRunF, h]

theorem tabIterRun_of_none {src : List Byte}
    (h : find_sequence src TAB_SEQUENCE = none) : tabIterRun src = some [src] := by
  unfold tabIterRun
  rw [tabIterRunF_succ_none h]

theorem tabIterRunF_fuel : ∀ {src : List Byte} {fuel : Nat},
    src.length < fuel → tabIterRunF fuel src = tabIterRun src := by
  intro src
  generalize hn : src.length = n
  induction n using Nat.strong_induction_on generalizing src with
  | _ n ih =>
    intro fuel hlen
    subst hn
    match fuel, hlen with
    | fuel + 1, hlen =>
      cases hs : find_sequence src TAB_SEQUENCE with
      | none => rw [tabIterRunF_succ_none hs, tabIterRun_of_none hs]
      | some i =>
        rw [tabIterRunF_succ_some hs]
        unfold tabIterRun
        rw [tabIterRunF_succ_some hs]
        by_cases hg : i + 5 ≤ src.length
        · rw [if_pos hg, if_pos hg]
          have hdrop : (src.drop (i + 5)).length < src.length := by
            simp only [List.length_drop]; omega
          rw [@ih (src.drop (i + 5)).length hdrop (src.drop (i + 5)) rfl fuel (by omega),
            @ih (src.drop (i + 5)).length hdrop (src.drop (i + 5)) rfl src.length (by omega)]
        · rw [if_neg hg, if_neg hg]

theorem tabIterRun_of_some {src : List Byte} {i : Nat}
    (h : find_sequence src TAB_SEQUENCE = some i) :
    tabIterRun src =
      if i + 5 ≤ src.length then
        (tabIterRun (src.drop (i + 5))).map (src.take i :: ·)
      else none := by
  unfold tabIterRun
  rw [tabIterRunF_succ_some h]
  by_cases hg : i + 5 ≤ src.length
  · rw [if_pos hg, if_pos hg, @tabIterRunF_fuel (src.drop (i + 5)) src.length
      (by simp only [List.length_drop]; omega)]
    rfl
  · rw [if_neg hg, if_neg hg]

/-- Claim C10: whenever the first occurrence of the 4-byte separator starts
at position `i` and the input has fewer than `i + 5` bytes, advancing the
tab scanner panics in `split_at` (modelled as `none`) instead of yielding
the remaining span, and so does the whole run. -/
theorem claim_c10 (src : List Byte) (i : Nat)
    (h : find_sequence src TAB_SEQUENCE = some i) (hlen : src.length < i + 5) :
    tabIterStep src = none ∧ tabIterRun src = none := by
  constructor
  · simp only [tabIterStep, h]
    rw [if_neg]
    simp only [List.length_drop, TAB_SEQUENCE]
    simp only [List.length_cons, List.length_nil]
    omega
  · rw [tabIterRun_of_some h, if_neg (by omega)]

/-- Witness for C10 at the input consisting of exactly the separator. -/
theorem claim_c10_witness : tabIterStep TAB_SEQUENCE = none ∧ tabIterRun TAB_SEQUENCE = none :=
  claim_c10 TAB_SEQUENCE 0 (by decide) (by decide)

/-- Counterexample to claim C4 as stated: on `b"a-->8\nb"` the scanner
yields spans `a` and `b`, but re-inserting only the 4-byte separator gives
`a-->8b`, not the original buffer (the byte after the separator was
consumed as well). -/
theorem claim_c4_counterexample :
    tabIterRun c4cex = some [[97], [98]] ∧
      List.intercalate TAB_SEQUENCE [[97], [98]] ≠ c4cex := by decide

/-- Claim C4 as amended: when the scanner finishes normally, the original
buffer is reconstructed by re-inserting, between consecutive spans, the
4-byte separator followed by the one extra byte the scanner consumed after
it (a newline in serializer output); when the separator never occurs the
whole input is the single span. -/
theorem claim_c4_amended (src : List Byte) (spans : List (List Byte))
    (h : tabIterRun src = some spans) :
    (find_sequence src TAB_SEQUENCE = none → spans = [src]) ∧
      ∃ pairs final, spans = pairs.map Prod.fst ++ [final] ∧
        glueSpans pairs final = src := by
  generalize hn : src.length = n
  induction n using Nat.strong_induction_on generalizing src spans with
  | _ n ih =>
    subst hn
    cases hs : find_sequence src TAB_SEQUENCE with
    | none =>
      rw [tabIterRun_of_none hs] at h
      obtain rfl : spans = [src] := by simpa using h.symm
      exact ⟨fun _ => rfl, [], src, by simp, by simp [glueSpans]⟩
    | some i =>
      rw [tabIterRun_of_some hs] at h
      refine ⟨fun hnone => ?_, ?_⟩
      · exact Option.noConfusion hnone
      by_cases hg : i + 5 ≤ src.length
      · rw [if_pos hg] at h
        obtain ⟨spans2, h2, rfl⟩ := Option.map_eq_some'.mp h
        obtain ⟨hb, htake⟩ := find_sequence_bound hs
        have hlt : i + 4 < src.length := by
          simpa [TAB_SEQUENCE] using by omega
        have hcons : src.drop (i + 4) = src[i + 4] :: src.drop (i + 5) :=
          List.drop_eq_getElem_cons hlt
        have hsplit : src = src.take i ++ TAB_SEQUENCE ++ src[i + 4] :: src.drop (i + 5) := by
          conv_lhs => rw [← List.take_append_drop i src]
          rw [← List.take_append_drop 4 (src.drop i)]
          have h4 : (src.drop i).take 4 = TAB_SEQUENCE := by
            simpa [TAB_SEQUENCE] using htake
          rw [h4, List.drop_drop, ← hcons]
          simp [Nat.add_comm]
        obtain ⟨-, pairs2, final2, hsp, hglue⟩ :=
          @ih (src.drop (i + 5)).length (by simp; omega) (src.drop (i + 5)) spans2 h2 rfl
        refine ⟨(src.take i, src[i + 4]) :: pairs2, final2, by simp [hsp], ?_⟩
        simp only [glueSpans, List.foldr_cons] at hglue ⊢
        rw [hglue]
        exact hsplit.symm
      · rw [if_neg hg] at h
        cases h

/-- Witness for the amended C4 at `b"a-->8\nb"`. -/
theorem claim_c4_witness :
    (find_sequence c4cex TAB_SEQUENCE = none → [[97], [98]] = [c4cex]) ∧
      ∃ pairs final, [[97], [98]] = pairs.map Prod.fst ++ [final] ∧
        glueSpans pairs final = c4cex :=
  claim_c4_amended c4cex [[97], [98]] (by decide)

/-! ### the tab splitter -/

theorem codeTabsGo_overflow :
    ∀ (spans : List (List Byte)) (ln idx : Nat) (tabs : List (Option Tab)),
      idx ≤ 16 → 16 < idx + spans.length → codeTabsGo spans ln idx tabs = none := by
  intro spans
  induction spans with
  | nil => intro ln idx tabs h1 h2; simp at h2; omega
  | cons d rest ih =>
    intro ln idx tabs h1 h2
    by_cases hidx : idx < 16
    · simp only [codeTabsGo, P8_MAX_CODE_EDITOR_TAB_COUNT, hidx, if_pos]
      exact ih _ _ _ (by omega) (by simp at h2 ⊢; omega)
    · have : ¬ idx < P8_MAX_CODE_EDITOR_TAB_COUNT := by
        simp [P8_MAX_CODE_EDITOR_TAB_COUNT]; omega
      simp [codeTabsGo, this]

/-- Counterexample to claim C2 as stated: a Lua section whose body consists
of 20 separator tokens (21 spans) makes the tab splitter panic (the
out-of-bounds write at slot 16), instead of returning 16 slots. -/
theorem claim_c2_counterexample : get_code_tabs_from_lua_section 3 c2data = none := by
  decide

/-- Claim C2 as amended: whenever the tab scanner yields more than 16 spans
for a Lua section body, the tab splitter panics (index out of bounds when
writing tab slot 16) instead of returning normally; excess content is not
silently dropped. -/
theorem claim_c2_amended (line_number : Nat) (data : List Byte)
    (spans : List (List Byte)) (h : tabIterRun data = some spans)
    (hlen : 16 < spans.length) :
    get_code_tabs_from_lua_section line_number data = none := by
  unfold get_code_tabs_from_lua_section
  rw [h, Option.some_bind]
  exact codeTabsGo_overflow spans (line_number + 1) 0 _ (by omega) (by omega)

/-- Witness for the amended C2 at the 20-separator body. -/
theorem claim_c2_witness : get_code_tabs_from_lua_section 0 c2data = none :=
  claim_c2_amended 0 c2data (List.replicate 21 []) (by decide) (by decide)

/-- Claim C9 evaluation at the failing input (code bug): for the Lua
section of the spec's concrete scenario (marker on line 3, bodies of one
line each), the splitter records starting lines 4 and 5, although the
claim's bookkeeping — increment for the separator line before recording —
yields 6 for tab 1. -/
theorem claim_c9 :
    (get_code_tabs_from_lua_section 3 c9data).map
        (fun tabs => tabs.map (Option.map Tab.line_number)) =
      some ([some 4, some 5] ++ List.replicate 14 none) ∧
      3 + 1 + (newlineLines (c9data.take 11)).length + 1 = 6 := by
  decide

/-! ### the header recognizer -/

theorem nlFirst_eq_none {src : List Byte} : nlFirst src = none ↔ src = [] := by
  constructor
  · intro h
    unfold nlFirst at h
    cases hs : splitln_const src with
    | none =>
      rw [hs] at h
      by_cases hsrc : src = []
      · exact hsrc
      · simp [hsrc] at h
    | some lr => rw [hs] at h; simp at h
  · intro h; subst h; decide

theorem nlFirst_prefix {src l : List Byte} {st : Option (List Byte)}
    (h : nlFirst src = some (l, st)) : ∃ t, src = l ++ t := by
  unfold nlFirst at h
  cases hs : splitln_const src with
  | none =>
    rw [hs] at h
    by_cases hsrc : src = [] <;> simp [hsrc] at h
    exact ⟨[], by simp [h.1]⟩
  | some lr =>
    rw [hs] at h
    obtain ⟨heq, -⟩ := splitln_eq_some hs
    simp at h
    exact ⟨lr.2, by rw [heq, h.1]⟩

theorem find_index_append {l t : List Byte} {b : Byte} {i : Nat}
    (h : find_index_of_element_const l b = some i) :
    find_index_of_element_const (l ++ t) b = some i := by
  induction l generalizing i with
  | nil => simp [find_index_of_element_const] at h
  | cons x xs ih =>
    by_cases hx : x = b
    · simp [find_index_of_element_const, hx] at h ⊢
      omega
    · simp [find_index_of_element_const, hx] at h ⊢
      obtain ⟨j, hj, rfl⟩ := h
      exact ⟨j, ih hj, rfl⟩

theorem marker_prefix_splitln {src : List Byte}
    (h : CARTRIDGE_MARKER.isPrefixOf src = true) :
    splitln_const src = some (CARTRIDGE_MARKER, src.drop CARTRIDGE_MARKER.length) := by
  obtain ⟨t, rfl⟩ := List.isPrefixOf_iff_prefix.mp h
  have hfind : find_index_of_element_const CARTRIDGE_MARKER 10 = some 41 := by decide
  have hfind2 := find_index_append (t := t) hfind
  have hlen : CARTRIDGE_MARKER.length = 42 := by decide
  unfold splitln_const
  simp only [hfind2]
  rw [if_pos (by simp [hlen])]
  have h1 : (CARTRIDGE_MARKER ++ t).take (41 + 1) = CARTRIDGE_MARKER := by
    rw [show 41 + 1 = CARTRIDGE_MARKER.length from by decide, List.take_left]
  have h2 : (CARTRIDGE_MARKER ++ t).drop (41 + 1) =
      (CARTRIDGE_MARKER ++ t).drop CARTRIDGE_MARKER.length := by
    rw [show 41 + 1 = CARTRIDGE_MARKER.length from by decide]
  rw [h1, h2]

theorem nlFirst_of_marker_prefix {src : List Byte}
    (h : CARTRIDGE_MARKER.isPrefixOf src = true) :
    nlFirst src = some (CARTRIDGE_MARKER, some (src.drop CARTRIDGE_MARKER.length)) := by
  unfold nlFirst
  rw [marker_prefix_splitln h]

/-- Counterexample to claim C5 as stated: on the input
`b"hello\nversion 43\n"` — two well-formed lines whose first is not the
signature — `split_from` panics via the constant pattern
`let CARTRIDGE_MARKER = ... else panic!`, instead of succeeding. -/
theorem claim_c5_counterexample : split_from c5cex = Except.error () := by decide

/-- Claim C5 as amended: `split_from` panics exactly when the buffer is
non-empty and the signature line is not a byte-for-byte prefix (the
signature IS validated, by a constant pattern); it returns `None` exactly
when the buffer is empty, or the signature prefix is present but no second
line exists, or the second line is not decodable as UTF-8; on success the
header is the buffer's first two lines (signature plus version line) and
the remainder is the rest. -/
theorem claim_c5_amended (src : List Byte) :
    (split_from src = Except.error () ↔
      src ≠ [] ∧ ¬ CARTRIDGE_MARKER.isPrefixOf src = true) ∧
    (split_from src = Except.ok none ↔
      src = [] ∨ (CARTRIDGE_MARKER.isPrefixOf src = true ∧
        (src.drop CARTRIDGE_MARKER.length = [] ∨
          ∃ l2 st2, nlFirst (src.drop CARTRIDGE_MARKER.length) = some (l2, st2) ∧
            utf8Valid l2 = false))) ∧
    (∀ h r, split_from src = Except.ok (some (h, r)) →
      h ++ r = src ∧
        ∃ l2 st2, nlFirst (src.drop CARTRIDGE_MARKER.length) = some (l2, st2) ∧
          h = CARTRIDGE_MARKER ++ l2 ∧ utf8Valid l2 = true) := by
  by_cases hpre : CARTRIDGE_MARKER.isPrefixOf src = true
  · have hne : src ≠ [] := by
      intro hcontra
      obtain ⟨t, heq⟩ := List.isPrefixOf_iff_prefix.mp hpre
      rw [hcontra] at heq
      have := congrArg List.length heq
      simp [CARTRIDGE_MARKER] at this
    have hnl := nlFirst_of_marker_prefix hpre
    cases hnl2 : nlFirst (src.drop CARTRIDGE_MARKER.length) with
    | none =>
      have hdrop : src.drop CARTRIDGE_MARKER.length = [] := nlFirst_eq_none.mp hnl2
      have hsf : split_from src = Except.ok none := by
        simp [split_from, hnl, Option.some_bind, hnl2]
      refine ⟨?_, ?_, ?_⟩
      · simp [hsf, hpre]
      · simp [hsf, hpre, hdrop]
      · intro h r hcontra
        rw [hsf] at hcontra
        simp at hcontra
    | some p =>
      obtain ⟨l2, st2⟩ := p
      obtain ⟨t2, hrest⟩ := nlFirst_prefix hnl2
      by_cases hv : utf8Valid l2 = true
      · have hsf : split_from src =
            Except.ok (some (src.take (CARTRIDGE_MARKER.length + l2.length),
              src.drop (CARTRIDGE_MARKER.length + l2.length))) := by
          simp only [split_from, hnl, Option.some_bind, hnl2, if_pos rfl, hv, if_true]
        refine ⟨?_, ?_, ?_⟩
        · simp [hsf, hpre]
        · rw [hsf]
          simp only [hpre, true_and, hne, false_or]
          constructor
          · intro hcontra; simp at hcontra
          · rintro (hd | ⟨l2x, st2x, hx, hvx⟩)
            · have hnone : nlFirst ([] : List Byte) = none := by decide
              rw [hd, hnone] at hnl2
              simp at hnl2
            · obtain ⟨rfl, -⟩ : l2 = l2x ∧ st2 = st2x := by simpa using hx
              rw [hv] at hvx; simp at hvx
        · intro h r hok
          rw [hsf] at hok
          obtain ⟨hh, hr⟩ : src.take (CARTRIDGE_MARKER.length + l2.length) = h ∧
              src.drop (CARTRIDGE_MARKER.length + l2.length) = r := by
            simpa using hok
          subst hh; subst hr
          refine ⟨List.take_append_drop _ _, l2, st2, rfl, ?_, hv⟩
          obtain ⟨t, hsrc⟩ := List.isPrefixOf_iff_prefix.mp hpre
          rw [← hsrc] at hrest ⊢
          have ht : t = l2 ++ t2 := by
            have h3 := hrest
            rwa [List.drop_left] at h3
          subst ht
          rw [← List.append_assoc]
          exact List.take_left' (by rw [List.length_append])
      · simp only [Bool.not_eq_true] at hv
        have hsf : split_from src = Except.ok none := by
          simp [split_from, hnl, Option.some_bind, hnl2, hv]
        refine ⟨?_, ?_, ?_⟩
        · simp [hsf, hpre]
        · rw [hsf]
          simp only [hpre, true_and, hne, false_or]
          constructor
          · intro _
            exact Or.inr ⟨l2, st2, rfl, hv⟩
          · intro _; trivial
        · intro h r hcontra
          rw [hsf] at hcontra
          simp at hcontra
  · by_cases hsrc : src = []
    · subst hsrc
      have hsf : split_from ([] : List Byte) = Except.ok none := by decide
      refine ⟨?_, ?_, ?_⟩
      · simp [hsf]
      · simp [hsf]
      · intro h r hcontra; rw [hsf] at hcontra; simp at hcontra
    · have herr : split_from src = Except.error () := by
        unfold split_from
        cases hnl : nlFirst src with
        | none => exact absurd (nlFirst_eq_none.mp hnl) hsrc
        | some p =>
          obtain ⟨l1, st⟩ := p
          have hl1 : l1 ≠ CARTRIDGE_MARKER := by
            intro heq
            subst heq
            obtain ⟨t, rfl⟩ := nlFirst_prefix hnl
            exact hpre (List.isPrefixOf_iff_prefix.mpr ⟨t, rfl⟩)
          simp [hl1]
      refine ⟨?_, ?_, ?_⟩
      · simp [herr, hsrc, hpre]
      · simp [herr, hsrc, hpre]
      · intro h r hcontra; rw [herr] at hcontra; simp at hcontra

/-- Witness for the amended C5 on a marker plus version line plus one
byte. -/
theorem claim_c5_witness :
    (CARTRIDGE_MARKER ++ versionLine) ++ [120] = CARTRIDGE_MARKER ++ versionLine ++ [120] ∧
      ∃ l2 st2,
        nlFirst ((CARTRIDGE_MARKER ++ versionLine ++ [120]).drop CARTRIDGE_MARKER.length) =
          some (l2, st2) ∧
        CARTRIDGE_MARKER ++ versionLine = CARTRIDGE_MARKER ++ l2 ∧ utf8Valid l2 = true :=
  (claim_c5_amended (CARTRIDGE_MARKER ++ versionLine ++ [120])).2.2
    (CARTRIDGE_MARKER ++ versionLine) [120] (by decide)

/-! ### the section slicer -/

theorem sectionsGo_pos {src : List Byte} :
    ∀ (l : List SectionDelimiter) (idx off : Nat), idx ≠ 0 →
      sectionsGo src l idx off = sgPos src l off := by
  intro l
  induction l with
  | nil => intros; rfl
  | cons d rest ih =>
    intro idx off hidx
    simp only [sectionsGo, sgPos, if_neg hidx]
    cases h : sliceRange src (contentStart d) off with
    | none => simpa using ih _ _ (by omega)
    | some data => simpa using ih _ _ (by omega)

theorem sgPos_append {src : List Byte} :
    ∀ (l1 l2 : List SectionDelimiter) (off : Nat),
      sgPos src (l1 ++ l2) off = sgPos src l1 off ++ sgPos src l2 (sgThread src l1 off) := by
  intro l1
  induction l1 with
  | nil => intros; rfl
  | cons d rest ih =>
    intro l2 off
    simp only [List.cons_append, sgPos, sgThread]
    cases h : sliceRange src (contentStart d) off with
    | none => simp [h, ih]
    | some data => simp [h, ih]

theorem sgThread_append {src : List Byte} :
    ∀ (l1 l2 : List SectionDelimiter) (off : Nat),
      sgThread src (l1 ++ l2) off = sgThread src l2 (sgThread src l1 off) := by
  intro l1
  induction l1 with
  | nil => intros; rfl
  | cons d rest ih =>
    intro l2 off
    simp only [List.cons_append, sgThread]
    cases h : sliceRange src (contentStart d) off with
    | none => simp [h, ih]
    | some data => simp [h, ih]

theorem sections_rev_spec {src : List Byte} :
    ∀ (s : List SectionDelimiter) (dF : SectionDelimiter),
      fwdRangesOk src.length (dF :: s) = true →
      sgPos src ((dF :: s).reverse) src.length = (claimGo src (dF :: s)).reverse ∧
        sgThread src ((dF :: s).reverse) src.length = dF.byte_offset := by
  intro s
  induction s with
  | nil =>
    intro dF hok
    have hc : contentStart dF ≤ src.length := by simpa [fwdRangesOk] using hok
    have hsome : sliceRange src (contentStart dF) src.length =
        some (src.drop (contentStart dF)) := by
      unfold sliceRange
      rw [if_pos ⟨hc, le_refl _⟩]
      congr 1
      exact List.take_of_length_le (by simp)
    refine ⟨?_, ?_⟩
    · simp [sgPos, hsome, claimGo, sliceFrom, hc]
    · simp [sgThread, hsome]
  | cons d2 s2 ih =>
    intro dF hok
    have hdec : (contentStart dF ≤ d2.byte_offset ∧ d2.byte_offset ≤ src.length) ∧
        fwdRangesOk src.length (d2 :: s2) = true := by
      simpa [fwdRangesOk] using hok
    obtain ⟨⟨h1, h2⟩, h3⟩ := hdec
    obtain ⟨ihp, iht⟩ := ih d2 h3
    have hrev : (dF :: d2 :: s2).reverse = (d2 :: s2).reverse ++ [dF] := by simp
    have hsome : sliceRange src (contentStart dF) d2.byte_offset =
        some ((src.drop (contentStart dF)).take (d2.byte_offset - contentStart dF)) := by
      unfold sliceRange
      rw [if_pos ⟨h1, h2⟩]
    refine ⟨?_, ?_⟩
    · rw [hrev, sgPos_append, iht, ihp]
      have hclaim : claimGo src (dF :: d2 :: s2) =
          ⟨dF.type, dF.line_number,
            (src.drop (contentStart dF)).take (d2.byte_offset - contentStart dF)⟩ ::
            claimGo src (d2 :: s2) := by
        simp only [claimGo, hsome]
        rfl
      rw [hclaim]
      simp [sgPos, hsome]
    · rw [hrev, sgThread_append, iht]
      simp [sgThread, hsome]

theorem fwdRangesOk_last {len : Nat} :
    ∀ (s : List SectionDelimiter) (e : SectionDelimiter)
      (restRev : List SectionDelimiter),
      fwdRangesOk len s = true → s.reverse = e :: restRev → contentStart e ≤ len := by
  intro s
  induction s with
  | nil => intro e r h hrev; simp at hrev
  | cons d s2 ih =>
    intro e r h hrev
    cases s2 with
    | nil =>
      simp at hrev
      obtain ⟨rfl, -⟩ := hrev
      simpa [fwdRangesOk] using h
    | cons d2 s3 =>
      have h3 : fwdRangesOk len (d2 :: s3) = true := by
        have : ((contentStart d ≤ d2.byte_offset ∧ d2.byte_offset ≤ len) ∧
            fwdRangesOk len (d2 :: s3) = true) := by simpa [fwdRangesOk] using h
        exact this.2
      cases hrev2 : (d2 :: s3).reverse with
      | nil => simp at hrev2
      | cons e2 r2 =>
        have hrev2b : s3.reverse ++ [d2] = e2 :: r2 := by simpa using hrev2
        have hd : (d :: d2 :: s3).reverse = e2 :: (r2 ++ [d]) := by
          simp only [List.reverse_cons]
          rw [hrev2b]
          simp
        rw [hd] at hrev
        obtain ⟨rfl, -⟩ : e2 = e ∧ r2 ++ [d] = r := by simpa using hrev
        exact ih _ r2 h3 hrev2

theorem sectionsGo_rev_eq_sgPos {src : List Byte} {s : List SectionDelimiter}
    (hok : fwdRangesOk src.length s = true) :
    sectionsGo src s.reverse 0 0 = sgPos src s.reverse src.length := by
  cases hrev : s.reverse with
  | nil => rfl
  | cons e restRev =>
    have hc : contentStart e ≤ src.length := fwdRangesOk_last s e restRev hok hrev
    have hfrom : sliceFrom src (contentStart e) = some (src.drop (contentStart e)) := by
      simp [sliceFrom, hc]
    have hrange : sliceRange src (contentStart e) src.length =
        some (src.drop (contentStart e)) := by
      unfold sliceRange
      rw [if_pos ⟨hc, le_refl _⟩]
      congr 1
      exact List.take_of_length_le (by simp)
    have hstep : sectionsGo src (e :: restRev) 0 0 =
        ⟨e.type, e.line_number, src.drop (contentStart e)⟩ ::
          sectionsGo src restRev 1 e.byte_offset := by
      simp [sectionsGo, hfrom]
    have hstep2 : sgPos src (e :: restRev) src.length =
        ⟨e.type, e.line_number, src.drop (contentStart e)⟩ ::
          sgPos src restRev e.byte_offset := by
      simp [sgPos, hrange]
    rw [hstep, hstep2, sectionsGo_pos restRev 1 e.byte_offset (by omega)]

theorem get_sections_valid_eq {src : List Byte} {ds : List SectionDelimiter}
    (hok : fwdRangesOk src.length (sortDelims ds) = true) :
    get_sections src ds = (claimSections src ds).reverse := by
  unfold get_sections claimSections
  rw [sectionsGo_rev_eq_sgPos hok]
  cases hs : sortDelims ds with
  | nil => rfl
  | cons dF s2 =>
    rw [hs] at hok
    exact (sections_rev_spec s2 dF hok).1

/-- Claim C7 as amended: when every delimiter's computed range is valid
(content start at most the next delimiter's byte offset, respectively the
buffer length for the last delimiter, and that end within the buffer), the
slicer yields exactly the claim's forward-lookahead sections — one per
delimiter, with data `buffer[byte_offset + marker_length + 1 .. next
delimiter's byte_offset]` and end-of-buffer for the last — in reverse
document order.  (When a range is invalid, that delimiter is dropped, but
the tracked end offset is left unchanged, which can drop other, valid
sections as well — see the counterexample.) -/
theorem claim_c7_amended (src : List Byte) (ds : List SectionDelimiter)
    (hok : fwdRangesOk src.length (sortDelims ds) = true) :
    get_sections src ds = (claimSections src ds).reverse :=
  get_sections_valid_eq hok

/-- Counterexample to claim C7 as stated: in the buffer
`__gfx__\n0011\n__map__` (final marker line unterminated), the map
delimiter's range is invalid; the claim then still yields the valid gfx
section, but the code drops it too (the tracked end offset is never
updated), producing no sections at all. -/
theorem claim_c7_counterexample :
    get_sections c7buf (get_section_delimiters c7buf (some 2)) = [] ∧
      claimSections c7buf (get_section_delimiters c7buf (some 2)) =
        [⟨SectionType.Gfx, 3, [48, 48, 49, 49, 10]⟩] := by decide

/-- Witness for the amended C7 on the buffer `__gfx__\n0011\n`. -/
theorem claim_c7_witness :
    get_sections [95, 95, 103, 102, 120, 95, 95, 10, 48, 48, 49, 49, 10]
        (get_section_delimiters [95, 95, 103, 102, 120, 95, 95, 10, 48, 48, 49, 49, 10]
          (some 2)) =
      (claimSections [95, 95, 103, 102, 120, 95, 95, 10, 48, 48, 49, 49, 10]
        (get_section_delimiters [95, 95, 103, 102, 120, 95, 95, 10, 48, 48, 49, 49, 10]
          (some 2))).reverse :=
  claim_c7_amended _ _ (by decide)

/-! ### the cartridge builder fold -/

theorem lastSec_nil (t : SectionType) : lastSec t [] = none := rfl

theorem lastSec_cons_ne {s : Section} {t : SectionType} (h : ¬ s.type = t)
    (rest : List Section) : lastSec t (s :: rest) = lastSec t rest := by
  unfold lastSec
  rw [List.filter_cons_of_neg (by simp [h])]

theorem lastSec_cons_self (t : SectionType) (ln : Nat) (data : List Byte)
    (rest : List Section) (y : Option (Nat × List Byte)) :
    Option.or (lastSec t (⟨t, ln, data⟩ :: rest)) y =
      Option.or (lastSec t rest) (some (ln, data)) := by
  unfold lastSec
  rw [List.filter_cons_of_pos (by simp)]
  rw [List.getLast?_cons]
  cases hl : (rest.filter fun s2 => s2.type == t).getLast? with
  | none => simp [Option.or_some, Option.none_or]
  | some v => simp [Option.or_some]

theorem slotOf_set_tabs (t : SectionType) (acc : CartDataBuilder)
    (v : List (Option Tab)) : slotOf t { acc with code_tabs := v } = slotOf t acc := by
  cases t <;> rfl

theorem slotOf_set_gfx {t : SectionType} (h : ¬ t = SectionType.Gfx)
    (acc : CartDataBuilder) (v : Option (Nat × List Byte)) :
    slotOf t { acc with gfx := v } = slotOf t acc := by
  cases t <;> first | rfl | exact absurd rfl h

theorem slotOf_set_gff {t : SectionType} (h : ¬ t = SectionType.Gff)
    (acc : CartDataBuilder) (v : Option (Nat × List Byte)) :
    slotOf t { acc with gff := v } = slotOf t acc := by
  cases t <;> first | rfl | exact absurd rfl h

theorem slotOf_set_label {t : SectionType} (h : ¬ t = SectionType.Label)
    (acc : CartDataBuilder) (v : Option (Nat × List Byte)) :
    slotOf t { acc with label := v } = slotOf t acc := by
  cases t <;> first | rfl | exact absurd rfl h

theorem slotOf_set_map {t : SectionType} (h : ¬ t = SectionType.Map)
    (acc : CartDataBuilder) (v : Option (Nat × List Byte)) :
    slotOf t { acc with map := v } = slotOf t acc := by
  cases t <;> first | rfl | exact absurd rfl h

theorem slotOf_set_sfx {t : SectionType} (h : ¬ t = SectionType.Sfx)
    (acc : CartDataBuilder) (v : Option (Nat × List Byte)) :
    slotOf t { acc with sfx := v } = slotOf t acc := by
  cases t <;> first | rfl | exact absurd rfl h

theorem slotOf_set_music {t : SectionType} (h : ¬ t = SectionType.Music)
    (acc : CartDataBuilder) (v : Option (Nat × List Byte)) :
    slotOf t { acc with music := v } = slotOf t acc := by
  cases t <;> first | rfl | exact absurd rfl h

theorem builderFold_slot : ∀ (ss : List Section) (acc b : CartDataBuilder),
    builderFold ss acc = some b → ∀ t, ¬ t = SectionType.Lua →
      slotOf t b = Option.or (lastSec t ss) (slotOf t acc) := by
  intro ss
  induction ss with
  | nil =>
    intro acc b h t ht
    obtain rfl : acc = b := by simpa [builderFold] using h
    simp [lastSec_nil, Option.none_or]
  | cons s rest ih =>
    intro acc b h t ht
    obtain ⟨st, ln, data⟩ := s
    cases st with
    | Lua =>
      simp only [builderFold] at h
      obtain ⟨tabs, htabs, hrest⟩ := Option.bind_eq_some.mp h
      rw [ih _ b hrest t ht, lastSec_cons_ne (by simpa using fun he => ht he.symm),
        slotOf_set_tabs]
    | Gfx =>
      simp only [builderFold] at h
      by_cases hteq : t = SectionType.Gfx
      · subst hteq
        rw [ih _ b h _ ht, lastSec_cons_self]
        rfl
      · rw [ih _ b h t ht, lastSec_cons_ne (by simpa using fun he => hteq he.symm),
          slotOf_set_gfx hteq]
    | Gff =>
      simp only [builderFold] at h
      by_cases hteq : t = SectionType.Gff
      · subst hteq
        rw [ih _ b h _ ht, lastSec_cons_self]
        rfl
      · rw [ih _ b h t ht, lastSec_cons_ne (by simpa using fun he => hteq he.symm),
          slotOf_set_gff hteq]
    | Label =>
      simp only [builderFold] at h
      by_cases hteq : t = SectionType.Label
      · subst hteq
        rw [ih _ b h _ ht, lastSec_cons_self]
        rfl
      · rw [ih _ b h t ht, lastSec_cons_ne (by simpa using fun he => hteq he.symm),
          slotOf_set_label hteq]
    | Map =>
      simp only [builderFold] at h
      by_cases hteq : t = SectionType.Map
      · subst hteq
        rw [ih _ b h _ ht, lastSec_cons_self]
        rfl
      · rw [ih _ b h t ht, lastSec_cons_ne (by simpa using fun he => hteq he.symm),
          slotOf_set_map hteq]
    | Sfx =>
      simp only [builderFold] at h
      by_cases hteq : t = SectionType.Sfx
      · subst hteq
        rw [ih _ b h _ ht, lastSec_cons_self]
        rfl
      · rw [ih _ b h t ht, lastSec_cons_ne (by simpa using fun he => hteq he.symm),
          slotOf_set_sfx hteq]
    | Music =>
      simp only [builderFold] at h
      by_cases hteq : t = SectionType.Music
      · subst hteq
        rw [ih _ b h _ ht, lastSec_cons_self]
        rfl
      · rw [ih _ b h t ht, lastSec_cons_ne (by simpa using fun he => hteq he.symm),
          slotOf_set_music hteq]

theorem builderFold_tabs : ∀ (ss : List Section) (acc b : CartDataBuilder),
    builderFold ss acc = some b →
    ((ss.filter fun s => s.type == SectionType.Lua).getLast? = none →
        b.code_tabs = acc.code_tabs) ∧
      (∀ sl, (ss.filter fun s => s.type == SectionType.Lua).getLast? = some sl →
        get_code_tabs_from_lua_section sl.line_number sl.data = some b.code_tabs) := by
  intro ss
  induction ss with
  | nil =>
    intro acc b h
    obtain rfl : acc = b := by simpa [builderFold] using h
    exact ⟨fun _ => rfl, fun sl hsl => by simp at hsl⟩
  | cons s rest ih =>
    intro acc b h
    obtain ⟨st, ln, data⟩ := s
    cases st with
    | Lua =>
      simp only [builderFold] at h
      obtain ⟨tabs, htabs, hrest⟩ := Option.bind_eq_some.mp h
      obtain ⟨p1, p2⟩ := ih _ b hrest
      rw [List.filter_cons_of_pos (by simp)]
      constructor
      · intro hcontra
        rw [List.getLast?_cons] at hcontra
        simp at hcontra
      · intro sl hsl
        rw [List.getLast?_cons] at hsl
        cases hfl : (rest.filter fun s2 => s2.type == SectionType.Lua).getLast? with
        | none =>
          rw [hfl] at hsl
          obtain rfl : sl = ⟨SectionType.Lua, ln, data⟩ := by simpa using hsl.symm
          have hbc : b.code_tabs = tabs := p1 hfl
          rw [hbc]
          exact htabs
        | some v =>
          rw [hfl] at hsl
          obtain rfl : sl = v := by simpa using hsl.symm
          exact p2 _ hfl
    | Gfx =>
      simp only [builderFold] at h
      rw [List.filter_cons_of_neg (by simp)]
      exact ih { acc with gfx := some (ln, data) } b h
    | Gff =>
      simp only [builderFold] at h
      rw [List.filter_cons_of_neg (by simp)]
      exact ih { acc with gff := some (ln, data) } b h
    | Label =>
      simp only [builderFold] at h
      rw [List.filter_cons_of_neg (by simp)]
      exact ih { acc with label := some (ln, data) } b h
    | Map =>
      simp only [builderFold] at h
      rw [List.filter_cons_of_neg (by simp)]
      exact ih { acc with map := some (ln, data) } b h
    | Sfx =>
      simp only [builderFold] at h
      rw [List.filter_cons_of_neg (by simp)]
      exact ih { acc with sfx := some (ln, data) } b h
    | Music =>
      simp only [builderFold] at h
      rw [List.filter_cons_of_neg (by simp)]
      exact ih { acc with music := some (ln, data) } b h

theorem builderFold_isSome : ∀ (ss : List Section) (acc : CartDataBuilder),
    (∀ s ∈ ss, s.type = SectionType.Lua →
      (get_code_tabs_from_lua_section s.line_number s.data).isSome) →
    (builderFold ss acc).isSome := by
  intro ss
  induction ss with
  | nil => intro acc _; simp [builderFold]
  | cons s rest ih =>
    intro acc hall
    obtain ⟨st, ln, data⟩ := s
    cases st with
    | Lua =>
      simp only [builderFold]
      have hsome := hall ⟨SectionType.Lua, ln, data⟩ (by simp) rfl
      obtain ⟨tabs, htabs⟩ := Option.isSome_iff_exists.mp hsome
      rw [htabs, Option.some_bind]
      exact ih _ fun s2 hs2 => hall s2 (by simp [hs2])
    | Gfx =>
      simp only [builderFold]
      exact ih _ fun s2 hs2 => hall s2 (by simp [hs2])
    | Gff =>
      simp only [builderFold]
      exact ih _ fun s2 hs2 => hall s2 (by simp [hs2])
    | Label =>
      simp only [builderFold]
      exact ih _ fun s2 hs2 => hall s2 (by simp [hs2])
    | Map =>
      simp only [builderFold]
      exact ih _ fun s2 hs2 => hall s2 (by simp [hs2])
    | Sfx =>
      simp only [builderFold]
      exact ih _ fun s2 hs2 => hall s2 (by simp [hs2])
    | Music =>
      simp only [builderFold]
      exact ih _ fun s2 hs2 => hall s2 (by simp [hs2])

theorem lastSec_eq_some {t : SectionType} {ss : List Section} {v : Nat × List Byte}
    (h : lastSec t ss = some v) :
    ∃ s ∈ ss, s.type = t ∧ v = (s.line_number, s.data) := by
  unfold lastSec at h
  obtain ⟨s2, hget, rfl⟩ := Option.map_eq_some'.mp h
  have hmem := List.mem_of_getLast?_eq_some hget
  have hm := List.mem_filter.mp hmem
  exact ⟨s2, hm.1, by simpa using hm.2, rfl⟩

theorem lastSec_eq_none_iff {t : SectionType} {ss : List Section} :
    lastSec t ss = none ↔ ∀ s ∈ ss, ¬ s.type = t := by
  unfold lastSec
  rw [Option.map_eq_none', List.getLast?_eq_none_iff, List.filter_eq_nil_iff]
  simp

theorem builder_gfx_eq {ss : List Section} {b : CartDataBuilder}
    (h : builderFromSections ss = some b) :
    b.gfx = lastSec SectionType.Gfx ss := by
  have := builderFold_slot ss {} b h SectionType.Gfx (by simp)
  simpa [slotOf, Option.or_none] using this

/-- Claim C6: building succeeds exactly when a Gfx section was present in
the folded sequence; a source whose header splits and whose sections
contain a Gfx section parses successfully with that (first-in-file) Gfx
section's data as the mandatory gfx asset; a source with a valid header
but no section markers at all fails to parse. -/
theorem claim_c6 :
    (∀ (ss : List Section) (hd : List Byte) (b : CartDataBuilder),
      builderFromSections ss = some b →
      ((build_with b hd).isSome ↔ ∃ s ∈ ss, s.type = SectionType.Gfx)) ∧
    (∀ (src hd rem : List Byte) (b : CartDataBuilder),
      split_from src = Except.ok (some (hd, rem)) →
      builderFromSections (get_sections rem (get_section_delimiters rem (some 2))) =
        some b →
      (∃ s ∈ get_sections rem (get_section_delimiters rem (some 2)),
        s.type = SectionType.Gfx) →
      ∃ c, from_cart_source src = Except.ok (some c) ∧
        ∃ s ∈ get_sections rem (get_section_delimiters rem (some 2)),
          s.type = SectionType.Gfx ∧ c.gfx = (s.line_number, s.data)) ∧
    (∀ (src hd rem : List Byte),
      split_from src = Except.ok (some (hd, rem)) →
      get_section_delimiters rem (some 2) = [] →
      from_cart_source src = Except.ok none) := by
  have hkey : ∀ (ss : List Section) (b : CartDataBuilder),
      builderFromSections ss = some b →
      (b.gfx.isSome ↔ ∃ s ∈ ss, s.type = SectionType.Gfx) := by
    intro ss b hb
    rw [builder_gfx_eq hb]
    constructor
    · intro hs
      obtain ⟨v, hv⟩ := Option.isSome_iff_exists.mp hs
      obtain ⟨s, hmem, htype, -⟩ := lastSec_eq_some hv
      exact ⟨s, hmem, htype⟩
    · intro ⟨s, hmem, htype⟩
      cases hls : lastSec SectionType.Gfx ss with
      | none => exact absurd htype (lastSec_eq_none_iff.mp hls s hmem)
      | some v => simp
  refine ⟨?_, ?_, ?_⟩
  · intro ss hd b hb
    rw [show (build_with b hd).isSome = b.gfx.isSome from by
      simp [build_with, Option.isSome_map]]
    exact hkey ss b hb
  · intro src hd rem b hsplit hb hex
    have hgfx : b.gfx.isSome := (hkey _ b hb).mpr hex
    obtain ⟨v, hv⟩ := Option.isSome_iff_exists.mp hgfx
    refine ⟨⟨hd, b.label, b.code_tabs, v, b.gff, b.map, b.sfx, b.music⟩, ?_, ?_⟩
    · simp only [from_cart_source, hsplit, hb]
      simp [build_with, hv]
    · rw [builder_gfx_eq hb] at hv
      obtain ⟨s, hmem, htype, rfl⟩ := lastSec_eq_some hv
      exact ⟨s, hmem, htype, rfl⟩
  · intro src hd rem hsplit hdelim
    simp only [from_cart_source, hsplit, hdelim]
    rfl

/-- Witness for C6: its three parts applied at concrete inputs — the
single-gfx builder sequence, the source with a gfx section, and the source
with no section markers. -/
theorem claim_c6_witness :
    ((build_with ⟨none, some (3, [48, 48, 49, 49, 10]), none, none, none, none,
        List.replicate 16 none⟩ (CARTRIDGE_MARKER ++ versionLine)).isSome ↔
      ∃ s ∈ [Section.mk SectionType.Gfx 3 [48, 48, 49, 49, 10]],
        s.type = SectionType.Gfx) ∧
    (∃ c, from_cart_source c6src = Except.ok (some c) ∧
      ∃ s ∈ get_sections (c6src.drop 53)
          (get_section_delimiters (c6src.drop 53) (some 2)),
        s.type = SectionType.Gfx ∧ c.gfx = (s.line_number, s.data)) ∧
    from_cart_source c6noMarkers = Except.ok none := by
  refine ⟨?_, ?_, ?_⟩
  · exact claim_c6.1 [Section.mk SectionType.Gfx 3 [48, 48, 49, 49, 10]] _ _ (by decide)
  · exact claim_c6.2.1 c6src (CARTRIDGE_MARKER ++ versionLine) (c6src.drop 53)
      ⟨none, some (3, [48, 48, 49, 49, 10]), none, none, none, none,
        List.replicate 16 none⟩
      (by decide) (by decide) (by decide)
  · exact claim_c6.2.2 c6noMarkers (CARTRIDGE_MARKER ++ versionLine)
      (c6noMarkers.drop 53) (by decide) (by decide)

/-! ### sortedness and fold order (C8) -/

theorem insertDelim_chain {d : SectionDelimiter} :
    ∀ {l : List SectionDelimiter},
      List.Chain' (fun a b : SectionDelimiter => a.line_number ≤ b.line_number) l →
      List.Chain' (fun a b : SectionDelimiter => a.line_number ≤ b.line_number)
        (insertDelim d l) := by
  intro l
  induction l with
  | nil => intro _; simp [insertDelim]
  | cons e rest ih =>
    intro hc
    unfold insertDelim
    by_cases hle : e.line_number ≤ d.line_number
    · rw [if_pos hle]
      have hc2 := ih (List.Chain'.tail hc)
      cases rest with
      | nil => simpa [insertDelim] using hle
      | cons e2 rest2 =>
        have he2 := List.chain'_cons.mp hc
        unfold insertDelim at hc2 ⊢
        by_cases hle2 : e2.line_number ≤ d.line_number
        · rw [if_pos hle2] at hc2 ⊢
          exact List.chain'_cons.mpr ⟨he2.1, hc2⟩
        · rw [if_neg hle2] at hc2 ⊢
          exact List.chain'_cons.mpr ⟨hle, hc2⟩
    · rw [if_neg hle]
      exact List.chain'_cons.mpr ⟨by omega, hc⟩

theorem sortDelims_chain (ds : List SectionDelimiter) :
    List.Chain' (fun a b : SectionDelimiter => a.line_number ≤ b.line_number)
      (sortDelims ds) := by
  unfold sortDelims
  suffices h : ∀ (l : List SectionDelimiter) (acc : List SectionDelimiter),
      List.Chain' (fun a b : SectionDelimiter => a.line_number ≤ b.line_number) acc →
      List.Chain' (fun a b : SectionDelimiter => a.line_number ≤ b.line_number)
        (l.foldl (fun acc d => insertDelim d acc) acc) by
    exact h ds [] (by simp)
  intro l
  induction l with
  | nil => intro acc hacc; simpa using hacc
  | cons d rest ih =>
    intro acc hacc
    exact ih _ (insertDelim_chain hacc)

theorem sectionsGo_lines_sublist {src : List Byte} :
    ∀ (l : List SectionDelimiter) (idx off : Nat),
      List.Sublist ((sectionsGo src l idx off).map Section.line_number)
        (l.map SectionDelimiter.line_number) := by
  intro l
  induction l with
  | nil => intro idx off; simp [sectionsGo]
  | cons d rest ih =>
    intro idx off
    simp only [sectionsGo]
    cases h : (if idx = 0 then sliceFrom src (contentStart d)
               else sliceRange src (contentStart d) off) with
    | none =>
      exact List.Sublist.cons _ (ih (idx + 1) off)
    | some data =>
      simp only [List.map_cons]
      exact List.Sublist.cons₂ _ (ih (idx + 1) d.byte_offset)

/-- Claim C8 as amended: the builder fold resolves duplicate sections by
last-writer-wins in fold order, but the fold order (the slicer's output)
is reverse document order — the slicer yields sections with non-increasing
line numbers — so the slot in the built cartridge holds the data of the
occurrence that appears FIRST in the actual file, not last. -/
theorem claim_c8_amended (src : List Byte) (ds : List SectionDelimiter)
    (b : CartDataBuilder)
    (hb : builderFromSections (get_sections src ds) = some b) :
    b.gfx = lastSec SectionType.Gfx (get_sections src ds) ∧
      List.Chain' (fun s t : Section => t.line_number ≤ s.line_number)
        (get_sections src ds) := by
  refine ⟨builder_gfx_eq hb, ?_⟩
  have hchain : List.Chain'
      (fun a b : SectionDelimiter => a.line_number ≤ b.line_number)
      (sortDelims ds) := sortDelims_chain ds
  have hrev : List.Chain'
      (fun a b : SectionDelimiter => b.line_number ≤ a.line_number)
      (sortDelims ds).reverse := by
    rw [List.chain'_reverse]
    exact hchain
  have hmap : List.Chain' (fun a b : Nat => b ≤ a)
      (((sortDelims ds).reverse).map SectionDelimiter.line_number) := by
    rw [List.chain'_map]
    exact hrev
  have hsub := @sectionsGo_lines_sublist src (sortDelims ds).reverse 0 0
  have hsecmap : List.Chain' (fun a b : Nat => b ≤ a)
      ((get_sections src ds).map Section.line_number) := by
    unfold get_sections
    exact List.Chain'.sublist hmap hsub
  rw [List.chain'_map] at hsecmap
  exact hsecmap

/-- Counterexample to claim C8 as stated: parsing a source with two gfx
sections (`aa\n` on line 3 and `bb\n` on line 5) keeps the data of the
FIRST occurrence, not of the one that appears last in the file. -/
theorem claim_c8_counterexample :
    (parseOk c8src).map (fun c => c.gfx.2) = some [97, 97, 10] ∧
      ([97, 97, 10] : List Byte) ≠ [98, 98, 10] := by decide

/-- Witness for the amended C8 at the duplicated-gfx section list. -/
theorem claim_c8_witness :
    (⟨none, some (3, [97, 97, 10]), none, none, none, none,
        List.replicate 16 none⟩ : CartDataBuilder).gfx =
      lastSec SectionType.Gfx
        (get_sections (c8src.drop 53) (get_section_delimiters (c8src.drop 53) (some 2))) ∧
      List.Chain' (fun s t : Section => t.line_number ≤ s.line_number)
        (get_sections (c8src.drop 53) (get_section_delimiters (c8src.drop 53) (some 2))) :=
  claim_c8_amended (c8src.drop 53) (get_section_delimiters (c8src.drop 53) (some 2))
    ⟨none, some (3, [97, 97, 10]), none, none, none, none, List.replicate 16 none⟩
    (by decide)

/-! ### line decomposition of serializer output -/

theorem splitln_append {a b l r : List Byte}
    (h : splitln_const a = some (l, r)) :
    splitln_const (a ++ b) = some (l, r ++ b) := by
  unfold splitln_const at h ⊢
  cases hf : find_index_of_element_const a 10 with
  | none => simp [hf] at h
  | some i =>
    have hi := find_index_lt hf
    have hle : i + 1 ≤ a.length := hi
    simp only [hf, hle, if_pos] at h
    obtain ⟨rfl, rfl⟩ : a.take (i + 1) = l ∧ a.drop (i + 1) = r := by simpa using h
    simp only [find_index_append (t := b) hf]
    have hle2 : i + 1 ≤ (a ++ b).length := by simp; omega
    rw [if_pos hle2]
    have ht : (a ++ b).take (i + 1) = a.take (i + 1) := by
      rw [List.take_append_eq_append_take, show i + 1 - a.length = 0 from by omega]
      simp
    have hd : (a ++ b).drop (i + 1) = a.drop (i + 1) ++ b := by
      rw [List.drop_append_eq_append_drop, show i + 1 - a.length = 0 from by omega]
      simp
    rw [ht, hd]

theorem newlineLines_append {a : List Byte} (b : List Byte)
    (ha : a.getLast? = some 10) :
    newlineLines (a ++ b) = newlineLines a ++ newlineLines b := by
  generalize hn : a.length = n
  induction n using Nat.strong_induction_on generalizing a with
  | _ n ih =>
    subst hn
    cases hs : splitln_const a with
    | none =>
      exact absurd (List.mem_of_getLast?_eq_some ha) (splitln_eq_none.mp hs)
    | some lr =>
      obtain ⟨l, r⟩ := lr
      have hshrink := splitln_shrink hs
      rw [newlineLines_of_some hs, newlineLines_of_some (splitln_append hs)]
      by_cases hr : r = []
      · subst hr
        obtain ⟨heq, -⟩ := splitln_eq_some hs
        rw [newlineLines_nil]
        simp only [List.append_nil] at heq
        subst heq
        simp
      · have hlast : r.getLast? = some 10 := by
          obtain ⟨heq, -⟩ := splitln_eq_some hs
          rw [heq, List.getLast?_append_of_ne_nil _ hr] at ha
          exact ha
        rw [ih r.length hshrink hlast rfl]
        simp

theorem find_index_append_not_mem {l : List Byte} {b : Byte} (h : b ∉ l)
    (t : List Byte) :
    find_index_of_element_const (l ++ b :: t) b = some l.length := by
  induction l with
  | nil => simp [find_index_of_element_const]
  | cons x xs ih =>
    have hx : ¬ x = b := fun he => h (by simp [he])
    have ih2 := ih (fun hm => h (by simp [hm]))
    simp [find_index_of_element_const, hx, ih2]

theorem splitln_line {l2 : List Byte} (h : 10 ∉ l2) (t : List Byte) :
    splitln_const (l2 ++ 10 :: t) = some (l2 ++ [10], t) := by
  unfold splitln_const
  simp only [find_index_append_not_mem h t]
  have hle : l2.length + 1 ≤ (l2 ++ 10 :: t).length := by simp
  rw [if_pos hle]
  have ht : (l2 ++ 10 :: t).take (l2.length + 1) = l2 ++ [10] := by
    have : l2 ++ 10 :: t = (l2 ++ [10]) ++ t := by simp
    rw [this, List.take_left' (by simp)]
  have hd : (l2 ++ 10 :: t).drop (l2.length + 1) = t := by
    have : l2 ++ 10 :: t = (l2 ++ [10]) ++ t := by simp
    rw [this, List.drop_left' (by simp)]
  rw [ht, hd]

theorem newlineLines_single {l2 : List Byte} (h : 10 ∉ l2) :
    newlineLines (l2 ++ [10]) = [l2 ++ [10]] := by
  have hs : splitln_const (l2 ++ [10]) = some (l2 ++ [10], []) := by
    have h2 := splitln_line h ([] : List Byte)
    simpa using h2
  rw [newlineLines_of_some hs, newlineLines_nil]

theorem marker_no_newline (t : SectionType) : 10 ∉ sectionMarker t := by
  cases t <;> decide

theorem newlineLines_with_data (t : SectionType) (d : List Byte) :
    newlineLines (with_data t d) =
      (sectionMarker t ++ [10]) :: newlineLines d := by
  unfold with_data
  rw [show sectionMarker t ++ 10 :: d = (sectionMarker t ++ [10]) ++ d from by simp]
  rw [newlineLines_append d (by simp [List.getLast?_concat]),
    newlineLines_single (marker_no_newline t)]
  rfl

theorem with_data_getLast {t : SectionType} {d : List Byte}
    (hd : nlTerminated d = true) : (with_data t d).getLast? = some 10 := by
  unfold with_data
  rw [show sectionMarker t ++ 10 :: d = (sectionMarker t ++ [10]) ++ d from by simp]
  unfold nlTerminated at hd
  by_cases hde : d = []
  · subst hde
    simp [List.getLast?_concat]
  · rw [List.getLast?_append_of_ne_nil _ hde]
    simp [hde] at hd
    simpa using hd

theorem newlineLines_chunks :
    ∀ (chunks : List (SectionType × List Byte)),
      (∀ td ∈ chunks, nlTerminated td.2 = true) →
      newlineLines (chunks.flatMap fun td => with_data td.1 td.2) =
        chunks.flatMap fun td => (sectionMarker td.1 ++ [10]) :: newlineLines td.2 := by
  intro chunks
  induction chunks with
  | nil => intro _; simp [newlineLines_nil]
  | cons td rest ih =>
    intro hall
    obtain ⟨t, d⟩ := td
    simp only [List.flatMap_cons]
    rw [newlineLines_append _ (with_data_getLast (hall (t, d) (by simp))),
      newlineLines_with_data, ih (fun td2 h2 => hall td2 (by simp [h2]))]

/-! ### delimiter scan over serializer output -/

theorem lines_length_sum (d : List Byte) :
    ((newlineLines d).map List.length).sum = d.length := by
  conv_rhs => rw [← newlineLines_flatten d]
  simp [List.length_flatten]

theorem delimsGo_skip {base : Nat} :
    ∀ (ls rest : List (List Byte)) (idx off : Nat),
      (∀ l ∈ ls, get_line_type l = none) →
      sectionDelimitersGo base (ls ++ rest) idx off =
        sectionDelimitersGo base rest (idx + ls.length)
          (off + (ls.map List.length).sum) := by
  intro ls
  induction ls with
  | nil => intro rest idx off _; simp
  | cons l ls2 ih =>
    intro rest idx off hall
    have hl : get_line_type l = none := hall l (by simp)
    simp only [List.cons_append, sectionDelimitersGo, hl]
    rw [show idx + (l :: ls2).length = (idx + 1) + ls2.length from by
        simp only [List.length_cons]; omega,
      show off + ((l :: ls2).map List.length).sum =
          (off + l.length) + (ls2.map List.length).sum from by
        simp only [List.map_cons, List.sum_cons]; omega]
    exact ih rest (idx + 1) (off + l.length) (fun x hx => hall x (by simp [hx]))

theorem get_line_type_marker (t : SectionType) :
    get_line_type (sectionMarker t ++ [10]) = some t := by
  cases t <;> decide

theorem cleanLines_forall {d : List Byte} (h : cleanLines d = true) :
    ∀ l ∈ newlineLines d, get_line_type l = none := by
  intro l hl
  unfold cleanLines at h
  have := List.all_eq_true.mp h l hl
  simpa [Option.isNone_iff_eq_none] using this

theorem delims_chunks {base : Nat} :
    ∀ (chunks : List (SectionType × List Byte)) (idx off : Nat),
      (∀ td ∈ chunks, cleanLines td.2 = true) →
      sectionDelimitersGo base
          (chunks.flatMap fun td => (sectionMarker td.1 ++ [10]) :: newlineLines td.2)
          idx off =
        chunkDelims chunks (idx + base) off := by
  intro chunks
  induction chunks with
  | nil => intro idx off _; simp [chunkDelims, sectionDelimitersGo]
  | cons td rest ih =>
    intro idx off hall
    obtain ⟨t, d⟩ := td
    have hlist : (((t, d) :: rest).flatMap
          fun td => (sectionMarker td.1 ++ [10]) :: newlineLines td.2) =
        (sectionMarker t ++ [10]) ::
          (newlineLines d ++
            rest.flatMap fun td => (sectionMarker td.1 ++ [10]) :: newlineLines td.2) := by
      simp
    rw [hlist]
    simp only [sectionDelimitersGo, get_line_type_marker]
    rw [delimsGo_skip (newlineLines d) _ (idx + 1) _
        (cleanLines_forall (hall (t, d) (by simp))),
      ih _ _ (fun td2 h2 => hall td2 (by simp [h2]))]
    conv_rhs => rw [chunkDelims]
    congr 1
    congr 1
    · omega
    · have hs := lines_length_sum d
      simp only [with_data, List.length_append, List.length_cons, List.length_nil]
      omega

theorem delims_of_chunks (chunks : List (SectionType × List Byte))
    (hterm : ∀ td ∈ chunks, nlTerminated td.2 = true)
    (hclean : ∀ td ∈ chunks, cleanLines td.2 = true) :
    get_section_delimiters (chunks.flatMap fun td => with_data td.1 td.2) (some 2) =
      chunkDelims chunks 3 0 := by
  unfold get_section_delimiters
  rw [newlineLines_chunks chunks hterm, delims_chunks chunks 0 0 hclean]
  rfl

/-! ### sorting is the identity on ascending delimiter lists -/

theorem insertDelim_last (d : SectionDelimiter) :
    ∀ acc : List SectionDelimiter,
      (∀ e ∈ acc, e.line_number ≤ d.line_number) →
      insertDelim d acc = acc ++ [d] := by
  intro acc
  induction acc with
  | nil => intro _; rfl
  | cons e rest ih =>
    intro h
    have he : e.line_number ≤ d.line_number := h e (by simp)
    simp only [insertDelim, if_pos he, List.cons_append]
    rw [ih (fun x hx => h x (by simp [hx]))]

theorem foldl_insert_sorted :
    ∀ (ds acc : List SectionDelimiter),
      ds.Pairwise (fun a b => a.line_number ≤ b.line_number) →
      (∀ e ∈ acc, ∀ x ∈ ds, e.line_number ≤ x.line_number) →
      ds.foldl (fun acc d => insertDelim d acc) acc = acc ++ ds := by
  intro ds
  induction ds with
  | nil => intro acc _ _; simp
  | cons d rest ih =>
    intro acc hp hcross
    obtain ⟨hd, hp2⟩ := List.pairwise_cons.mp hp
    simp only [List.foldl_cons]
    rw [insertDelim_last d acc (fun e he => hcross e he d (by simp))]
    rw [ih (acc ++ [d]) hp2 ?_]
    · simp
    · intro e he x hx
      rcases List.mem_append.mp he with h1 | h2
      · exact hcross e h1 x (by simp [hx])
      · obtain rfl : e = d := by simpa using h2
        exact hd x hx

theorem sortDelims_sorted {ds : List SectionDelimiter}
    (hp : ds.Pairwise (fun a b => a.line_number ≤ b.line_number)) :
    sortDelims ds = ds := by
  unfold sortDelims
  have := foldl_insert_sorted ds [] hp (by simp)
  simpa using this

theorem chunkDelims_lb :
    ∀ (chunks : List (SectionType × List Byte)) (lnum off : Nat)
      (e : SectionDelimiter), e ∈ chunkDelims chunks lnum off →
      lnum ≤ e.line_number := by
  intro chunks
  induction chunks with
  | nil => intro lnum off e h; simp [chunkDelims] at h
  | cons td rest ih =>
    intro lnum off e h
    obtain ⟨t, d⟩ := td
    simp only [chunkDelims, List.mem_cons] at h
    rcases h with rfl | h
    · simp
    · have := ih _ _ e h
      omega

theorem chunkDelims_pairwise :
    ∀ (chunks : List (SectionType × List Byte)) (lnum off : Nat),
      (chunkDelims chunks lnum off).Pairwise
        (fun a b => a.line_number ≤ b.line_number) := by
  intro chunks
  induction chunks with
  | nil => intro lnum off; simp [chunkDelims]
  | cons td rest ih =>
    intro lnum off
    obtain ⟨t, d⟩ := td
    simp only [chunkDelims]
    refine List.pairwise_cons.mpr ⟨?_, ih _ _⟩
    intro e he
    have hlb := chunkDelims_lb rest _ _ e he
    show lnum ≤ e.line_number
    omega

theorem sortDelims_chunkDelims (chunks : List (SectionType × List Byte))
    (lnum off : Nat) :
    sortDelims (chunkDelims chunks lnum off) = chunkDelims chunks lnum off :=
  sortDelims_sorted (chunkDelims_pairwise chunks lnum off)

/-! ### every chunk delimiter's slicing range is valid -/

theorem with_data_length (t : SectionType) (d : List Byte) :
    (with_data t d).length = (sectionMarker t).length + 1 + d.length := by
  simp [with_data]
  omega

theorem chunkDelims_cons (t : SectionType) (d : List Byte)
    (rest : List (SectionType × List Byte)) (lnum off : Nat) :
    chunkDelims ((t, d) :: rest) lnum off =
      ⟨t, lnum, off⟩ :: chunkDelims rest (lnum + 1 + (newlineLines d).length)
        (off + (with_data t d).length) := rfl

theorem fwdRangesOk_cons2 (len : Nat) (d d2 : SectionDelimiter)
    (rest : List SectionDelimiter) :
    fwdRangesOk len (d :: d2 :: rest) =
      ((decide (contentStart d ≤ d2.byte_offset) && decide (d2.byte_offset ≤ len))
        && fwdRangesOk len (d2 :: rest)) := rfl

theorem chunkRangesOk :
    ∀ (chunks : List (SectionType × List Byte)) (lnum off extra : Nat),
      fwdRangesOk (off + (chunks.flatMap fun td => with_data td.1 td.2).length + extra)
        (chunkDelims chunks lnum off) = true := by
  intro chunks
  induction chunks with
  | nil => intro lnum off extra; rfl
  | cons td rest ih =>
    intro lnum off extra
    obtain ⟨t, d⟩ := td
    cases rest with
    | nil =>
      simp only [chunkDelims, fwdRangesOk, contentStart, decide_eq_true_eq,
        List.flatMap_cons, List.flatMap_nil, List.append_nil, with_data_length]
      omega
    | cons td2 r2 =>
      obtain ⟨t2, d2⟩ := td2
      have hlen : off + ((((t, d) :: (t2, d2) :: r2).flatMap
            fun td => with_data td.1 td.2).length) + extra =
          (off + (with_data t d).length) +
            ((((t2, d2) :: r2).flatMap fun td => with_data td.1 td.2).length) + extra := by
        have hfm : (((t, d) :: (t2, d2) :: r2).flatMap fun td => with_data td.1 td.2)
            = with_data t d ++ ((t2, d2) :: r2).flatMap fun td => with_data td.1 td.2 := by
          simp
        rw [hfm, List.length_append]
        omega
      rw [hlen, chunkDelims_cons, chunkDelims_cons, fwdRangesOk_cons2]
      have hih := ih (lnum + 1 + (newlineLines d).length)
        (off + (with_data t d).length) extra
      rw [chunkDelims_cons] at hih
      simp only [Bool.and_eq_true, decide_eq_true_eq]
      refine ⟨⟨?_, ?_⟩, ?_⟩
      · simp only [contentStart, with_data_length]
        omega
      · omega
      · exact hih

theorem chunkRangesOk0 (chunks : List (SectionType × List Byte)) (lnum : Nat) :
    fwdRangesOk ((chunks.flatMap fun td => with_data td.1 td.2).length)
      (chunkDelims chunks lnum 0) = true := by
  have := chunkRangesOk chunks lnum 0 0
  simpa using this

/-! ### the forward slicer recovers exactly the encoded chunks -/

theorem claimGo_one (src : List Byte) (d : SectionDelimiter) :
    claimGo src [d] =
      match sliceFrom src (contentStart d) with
      | some data => [⟨d.type, d.line_number, data⟩]
      | none => [] := rfl

theorem claimGo_cons2 (src : List Byte) (d d2 : SectionDelimiter)
    (rest : List SectionDelimiter) :
    claimGo src (d :: d2 :: rest) =
      (match sliceRange src (contentStart d) d2.byte_offset with
       | some data => [⟨d.type, d.line_number, data⟩]
       | none => []) ++ claimGo src (d2 :: rest) := rfl

theorem claimGo_chunks :
    ∀ (chunks : List (SectionType × List Byte)) (pre : List Byte) (lnum : Nat),
      claimGo (pre ++ chunks.flatMap fun td => with_data td.1 td.2)
          (chunkDelims chunks lnum pre.length) =
        chunkSections chunks lnum := by
  intro chunks
  induction chunks with
  | nil => intro pre lnum; rfl
  | cons td rest ih =>
    intro pre lnum
    obtain ⟨t, d⟩ := td
    cases rest with
    | nil =>
      have hsrc : pre ++ ((t, d) :: []).flatMap (fun td => with_data td.1 td.2)
          = (pre ++ sectionMarker t ++ [10]) ++ d := by
        simp [with_data]
      have hcs : contentStart ⟨t, lnum, pre.length⟩
          = (pre ++ sectionMarker t ++ [10]).length := by
        simp [contentStart]
        omega
      have hslice : sliceFrom ((pre ++ sectionMarker t ++ [10]) ++ d)
          (contentStart ⟨t, lnum, pre.length⟩) = some d := by
        unfold sliceFrom
        rw [hcs, List.drop_left, if_pos (by simp)]
      rw [show chunkDelims [(t, d)] lnum pre.length = [⟨t, lnum, pre.length⟩] from rfl,
        hsrc, claimGo_one, hslice]
      rfl
    | cons td2 r2 =>
      obtain ⟨t2, d2⟩ := td2
      have hsrc3 : pre ++ (((t, d) :: (t2, d2) :: r2).flatMap
            fun td => with_data td.1 td.2)
          = (pre ++ with_data t d) ++
              (((t2, d2) :: r2).flatMap fun td => with_data td.1 td.2) := by
        simp
      have hcs : contentStart ⟨t, lnum, pre.length⟩
          = (pre ++ sectionMarker t ++ [10]).length := by
        simp [contentStart]
        omega
      have hslice : sliceRange
          ((pre ++ with_data t d) ++
            (((t2, d2) :: r2).flatMap fun td => with_data td.1 td.2))
          (contentStart ⟨t, lnum, pre.length⟩) (pre.length + (with_data t d).length)
          = some d := by
        rw [show (pre ++ with_data t d) ++
              (((t2, d2) :: r2).flatMap fun td => with_data td.1 td.2)
            = (pre ++ sectionMarker t ++ [10]) ++
              (d ++ ((t2, d2) :: r2).flatMap fun td => with_data td.1 td.2) from by
          simp [with_data]]
        have hb1 : contentStart ⟨t, lnum, pre.length⟩
            ≤ pre.length + (with_data t d).length := by
          simp only [contentStart, with_data_length]
          omega
        have hb2 : pre.length + (with_data t d).length ≤
            ((pre ++ sectionMarker t ++ [10]) ++
              (d ++ ((t2, d2) :: r2).flatMap fun td => with_data td.1 td.2)).length := by
          simp only [List.length_append, List.length_cons, List.length_nil,
            with_data_length]
          omega
        unfold sliceRange
        rw [if_pos ⟨hb1, hb2⟩, hcs, List.drop_left]
        have harith : pre.length + (with_data t d).length -
            (pre ++ sectionMarker t ++ [10]).length = d.length := by
          simp only [List.length_append, List.length_cons, List.length_nil,
            with_data_length]
          omega
        rw [harith, List.take_left]
      have hpl : (pre ++ with_data t d).length = pre.length + (with_data t d).length := by
        simp
      have hih := ih (pre ++ with_data t d) (lnum + 1 + (newlineLines d).length)
      rw [chunkDelims_cons] at hih
      rw [chunkDelims_cons, chunkDelims_cons, claimGo_cons2, hsrc3, hslice, ← hpl, hih]
      rfl

/-! ### slot values of the rebuilt section list -/

theorem lastSec_reverse (t : SectionType) (ss : List Section) :
    lastSec t ss.reverse =
      ((ss.filter fun s => s.type == t).head?).map fun s => (s.line_number, s.data) := by
  unfold lastSec
  rw [List.filter_reverse, List.getLast?_reverse]

theorem find_append_of_none {α : Type} (p : α → Bool) :
    ∀ (l₁ l₂ : List α), l₁.find? p = none → (l₁ ++ l₂).find? p = l₂.find? p := by
  intro l₁
  induction l₁ with
  | nil => intro l₂ _; rfl
  | cons x xs ih =>
    intro l₂ h
    cases hp : p x with
    | true =>
      rw [List.find?_cons_of_pos _ hp] at h
      exact absurd h (by simp)
    | false =>
      have hp2 : ¬ p x = true := by simp [hp]
      rw [List.find?_cons_of_neg _ hp2] at h
      rw [List.cons_append, List.find?_cons_of_neg _ hp2]
      exact ih l₂ h

theorem chunkSections_cons (t : SectionType) (d : List Byte)
    (rest : List (SectionType × List Byte)) (lnum : Nat) :
    chunkSections ((t, d) :: rest) lnum =
      ⟨t, lnum, d⟩ :: chunkSections rest (lnum + 1 + (newlineLines d).length) := rfl

theorem chunkSections_filter_find (t : SectionType) :
    ∀ (chunks : List (SectionType × List Byte)) (lnum : Nat),
      (((chunkSections chunks lnum).filter fun s => s.type == t).head?).map
          (fun s => s.data) =
        (chunks.find? fun td => td.1 == t).map Prod.snd := by
  intro chunks
  induction chunks with
  | nil => intro lnum; rfl
  | cons td rest ih =>
    intro lnum
    obtain ⟨t2, d⟩ := td
    rw [chunkSections_cons]
    by_cases ht : t2 = t
    · subst ht
      rw [List.filter_cons_of_pos (by simp), List.find?_cons_of_pos _ (by simp)]
      rfl
    · rw [List.filter_cons_of_neg (by simp [ht]),
        List.find?_cons_of_neg _ (by simp [ht])]
      exact ih _

theorem chunkSections_mem :
    ∀ (chunks : List (SectionType × List Byte)) (lnum : Nat) (s : Section),
      s ∈ chunkSections chunks lnum → (s.type, s.data) ∈ chunks := by
  intro chunks
  induction chunks with
  | nil => intro lnum s h; simp [chunkSections] at h
  | cons td rest ih =>
    intro lnum s h
    obtain ⟨t2, d⟩ := td
    rw [chunkSections_cons] at h
    rcases List.mem_cons.mp h with rfl | h2
    · simp
    · exact List.mem_cons_of_mem _ (ih _ s h2)

/-! ### locating each slot in the emitted chunk list -/

theorem optChunk_find_ne {t2 t : SectionType} (h : ¬ t2 = t)
    (v : Option (Nat × List Byte)) :
    (optChunk t2 v).find? (fun td => td.1 == t) = none := by
  cases v with
  | none => rfl
  | some nd =>
    rw [show optChunk t2 (some nd) = [(t2, nd.2)] from rfl,
      List.find?_cons_of_neg _ (by simp [h])]
    rfl

theorem optChunk_append_find_ne {t2 t : SectionType} (h : ¬ t2 = t)
    (v : Option (Nat × List Byte)) (X : List (SectionType × List Byte)) :
    ((optChunk t2 v) ++ X).find? (fun td => td.1 == t) =
      X.find? (fun td => td.1 == t) :=
  find_append_of_none _ _ _ (optChunk_find_ne h v)

theorem optChunk_append_find_self (t : SectionType) (v : Option (Nat × List Byte))
    (X : List (SectionType × List Byte)) (hX : X.find? (fun td => td.1 == t) = none) :
    ((optChunk t v) ++ X).find? (fun td => td.1 == t) = v.map fun nd => (t, nd.2) := by
  cases v with
  | none => simpa [optChunk] using hX
  | some nd =>
    rw [show optChunk t (some nd) = [(t, nd.2)] from rfl, List.singleton_append,
      List.find?_cons_of_pos _ (by simp)]
    rfl

theorem lua_append_find_ne {t : SectionType} (h : ¬ SectionType.Lua = t)
    (c : CartData) (X : List (SectionType × List Byte)) :
    ((if codeBytes c.code_tabs = [] then ([] : List (SectionType × List Byte))
      else [(SectionType.Lua, codeBytes c.code_tabs)]) ++ X).find?
        (fun td => td.1 == t) = X.find? (fun td => td.1 == t) := by
  apply find_append_of_none
  by_cases hcb : codeBytes c.code_tabs = []
  · rw [if_pos hcb]; rfl
  · rw [if_neg hcb, List.find?_cons_of_neg _ (by simp [h])]
    rfl

theorem emit_find_gfx (c : CartData) :
    ((emitChunks c).find? fun td => td.1 == SectionType.Gfx)
      = some (SectionType.Gfx, c.gfx.2) := by
  unfold emitChunks
  rw [List.append_assoc, List.append_assoc, List.append_assoc, List.append_assoc,
    List.append_assoc, lua_append_find_ne (by decide), List.cons_append,
    List.find?_cons_of_pos _ (by simp)]

theorem emit_find_label (c : CartData) :
    ((emitChunks c).find? fun td => td.1 == SectionType.Label)
      = c.label.map fun nd => (SectionType.Label, nd.2) := by
  unfold emitChunks
  rw [List.append_assoc, List.append_assoc, List.append_assoc, List.append_assoc,
    List.append_assoc, lua_append_find_ne (by decide), List.cons_append,
    List.find?_cons_of_neg _ (by simp), List.nil_append]
  cases hv : c.label with
  | none =>
    rw [show optChunk SectionType.Label none = ([] : List (SectionType × List Byte))
        from rfl, List.nil_append,
      @optChunk_append_find_ne SectionType.Gff SectionType.Label (by decide) _ _,
      @optChunk_append_find_ne SectionType.Map SectionType.Label (by decide) _ _,
      @optChunk_append_find_ne SectionType.Sfx SectionType.Label (by decide) _ _,
      @optChunk_find_ne SectionType.Music SectionType.Label (by decide) _]
    rfl
  | some nd =>
    rw [show optChunk SectionType.Label (some nd) = [(SectionType.Label, nd.2)] from rfl,
      List.cons_append, List.find?_cons_of_pos _ (by simp)]
    rfl

theorem emit_find_gff (c : CartData) :
    ((emitChunks c).find? fun td => td.1 == SectionType.Gff)
      = c.gff.map fun nd => (SectionType.Gff, nd.2) := by
  unfold emitChunks
  rw [List.append_assoc, List.append_assoc, List.append_assoc, List.append_assoc,
    List.append_assoc, lua_append_find_ne (by decide), List.cons_append,
    List.find?_cons_of_neg _ (by simp), List.nil_append,
    @optChunk_append_find_ne SectionType.Label SectionType.Gff (by decide) _ _]
  cases hv : c.gff with
  | none =>
    rw [show optChunk SectionType.Gff none = ([] : List (SectionType × List Byte))
        from rfl, List.nil_append,
      @optChunk_append_find_ne SectionType.Map SectionType.Gff (by decide) _ _,
      @optChunk_append_find_ne SectionType.Sfx SectionType.Gff (by decide) _ _,
      @optChunk_find_ne SectionType.Music SectionType.Gff (by decide) _]
    rfl
  | some nd =>
    rw [show optChunk SectionType.Gff (some nd) = [(SectionType.Gff, nd.2)] from rfl,
      List.cons_append, List.find?_cons_of_pos _ (by simp)]
    rfl

theorem emit_find_map (c : CartData) :
    ((emitChunks c).find? fun td => td.1 == SectionType.Map)
      = c.map.map fun nd => (SectionType.Map, nd.2) := by
  unfold emitChunks
  rw [List.append_assoc, List.append_assoc, List.append_assoc, List.append_assoc,
    List.append_assoc, lua_append_find_ne (by decide), List.cons_append,
    List.find?_cons_of_neg _ (by simp), List.nil_append,
    @optChunk_append_find_ne SectionType.Label SectionType.Map (by decide) _ _,
    @optChunk_append_find_ne SectionType.Gff SectionType.Map (by decide) _ _]
  cases hv : c.map with
  | none =>
    rw [show optChunk SectionType.Map none = ([] : List (SectionType × List Byte))
        from rfl, List.nil_append,
      @optChunk_append_find_ne SectionType.Sfx SectionType.Map (by decide) _ _,
      @optChunk_find_ne SectionType.Music SectionType.Map (by decide) _]
    rfl
  | some nd =>
    rw [show optChunk SectionType.Map (some nd) = [(SectionType.Map, nd.2)] from rfl,
      List.cons_append, List.find?_cons_of_pos _ (by simp)]
    rfl

theorem emit_find_sfx (c : CartData) :
    ((emitChunks c).find? fun td => td.1 == SectionType.Sfx)
      = c.sfx.map fun nd => (SectionType.Sfx, nd.2) := by
  unfold emitChunks
  rw [List.append_assoc, List.append_assoc, List.append_assoc, List.append_assoc,
    List.append_assoc, lua_append_find_ne (by decide), List.cons_append,
    List.find?_cons_of_neg _ (by simp), List.nil_append,
    @optChunk_append_find_ne SectionType.Label SectionType.Sfx (by decide) _ _,
    @optChunk_append_find_ne SectionType.Gff SectionType.Sfx (by decide) _ _,
    @optChunk_append_find_ne SectionType.Map SectionType.Sfx (by decide) _ _]
  cases hv : c.sfx with
  | none =>
    rw [show optChunk SectionType.Sfx none = ([] : List (SectionType × List Byte))
        from rfl, List.nil_append,
      @optChunk_find_ne SectionType.Music SectionType.Sfx (by decide) _]
    rfl
  | some nd =>
    rw [show optChunk SectionType.Sfx (some nd) = [(SectionType.Sfx, nd.2)] from rfl,
      List.cons_append, List.find?_cons_of_pos _ (by simp)]
    rfl

theorem emit_find_music (c : CartData) :
    ((emitChunks c).find? fun td => td.1 == SectionType.Music)
      = c.music.map fun nd => (SectionType.Music, nd.2) := by
  unfold emitChunks
  rw [List.append_assoc, List.append_assoc, List.append_assoc, List.append_assoc,
    List.append_assoc, lua_append_find_ne (by decide), List.cons_append,
    List.find?_cons_of_neg _ (by simp), List.nil_append,
    @optChunk_append_find_ne SectionType.Label SectionType.Music (by decide) _ _,
    @optChunk_append_find_ne SectionType.Gff SectionType.Music (by decide) _ _,
    @optChunk_append_find_ne SectionType.Map SectionType.Music (by decide) _ _,
    @optChunk_append_find_ne SectionType.Sfx SectionType.Music (by decide) _ _]
  cases hv : c.music with
  | none => rfl
  | some nd =>
    rw [show optChunk SectionType.Music (some nd) = [(SectionType.Music, nd.2)] from rfl,
      List.find?_cons_of_pos _ (by simp)]
    rfl

theorem optChunk_mem_fst {t2 : SectionType} {v : Option (Nat × List Byte)}
    {td : SectionType × List Byte} (h : td ∈ optChunk t2 v) : td.1 = t2 := by
  cases v with
  | none => simp [optChunk] at h
  | some nd =>
    rw [show optChunk t2 (some nd) = [(t2, nd.2)] from rfl] at h
    obtain rfl : td = (t2, nd.2) := by simpa using h
    rfl

theorem emit_lua_mem {c : CartData} {d : List Byte}
    (h : (SectionType.Lua, d) ∈ emitChunks c) :
    ¬ codeBytes c.code_tabs = [] ∧ d = codeBytes c.code_tabs := by
  unfold emitChunks at h
  simp only [List.append_assoc] at h
  by_cases hcb : codeBytes c.code_tabs = []
  · rw [if_pos hcb, List.nil_append] at h
    exfalso
    simp only [List.cons_append, List.nil_append, List.mem_cons] at h
    rcases h with heq | h
    · simp at heq
    rcases List.mem_append.mp h with h1 | h
    · simpa using optChunk_mem_fst h1
    rcases List.mem_append.mp h with h1 | h
    · simpa using optChunk_mem_fst h1
    rcases List.mem_append.mp h with h1 | h
    · simpa using optChunk_mem_fst h1
    rcases List.mem_append.mp h with h1 | h
    · simpa using optChunk_mem_fst h1
    · simpa using optChunk_mem_fst h
  · rw [if_neg hcb, List.cons_append] at h
    refine ⟨hcb, ?_⟩
    rcases List.mem_cons.mp h with heq | h
    · simpa using heq
    exfalso
    simp only [List.cons_append, List.nil_append, List.mem_cons] at h
    rcases h with heq | h
    · simp at heq
    rcases List.mem_append.mp h with h1 | h
    · simpa using optChunk_mem_fst h1
    rcases List.mem_append.mp h with h1 | h
    · simpa using optChunk_mem_fst h1
    rcases List.mem_append.mp h with h1 | h
    · simpa using optChunk_mem_fst h1
    rcases List.mem_append.mp h with h1 | h
    · simpa using optChunk_mem_fst h1
    · simpa using optChunk_mem_fst h

/-! ### the serializer's code section re-splits into the original tabs -/

theorem find_sequence_cons_pos {x : Byte} {xs seq : List Byte}
    (h : (x :: xs).take seq.length = seq) :
    find_sequence (x :: xs) seq = some 0 := by
  simp only [find_sequence]
  rw [if_pos h]

theorem find_sequence_cons_neg {x : Byte} {xs seq : List Byte}
    (h : ¬ (x :: xs).take seq.length = seq) :
    find_sequence (x :: xs) seq = (find_sequence xs seq).map (· + 1) := by
  simp only [find_sequence]
  rw [if_neg h]

theorem find_sequence_sep_append :
    ∀ (c0 tail2 : List Byte), find_sequence c0 TAB_SEQUENCE = none →
      find_sequence (c0 ++ TAB_SEQUENCE ++ tail2) TAB_SEQUENCE = some c0.length := by
  intro c0
  induction c0 with
  | nil =>
    intro tail2 _
    have hpos : ((45 : Byte) :: (45 :: 62 :: 56 :: tail2)).take TAB_SEQUENCE.length
        = TAB_SEQUENCE := rfl
    rw [List.nil_append,
      show TAB_SEQUENCE ++ tail2 = 45 :: 45 :: 62 :: 56 :: tail2 from rfl,
      find_sequence_cons_pos hpos]
    rfl
  | cons x xs ih =>
    intro tail2 h
    have hparts : ¬ ((x :: xs).take TAB_SEQUENCE.length = TAB_SEQUENCE) ∧
        find_sequence xs TAB_SEQUENCE = none := by
      by_cases hx : (x :: xs).take TAB_SEQUENCE.length = TAB_SEQUENCE
      · rw [find_sequence_cons_pos hx] at h
        exact absurd h (by simp)
      · rw [find_sequence_cons_neg hx] at h
        exact ⟨hx, by simpa using h⟩
    have hwin : ¬ ((x :: (xs ++ TAB_SEQUENCE ++ tail2)).take TAB_SEQUENCE.length
        = TAB_SEQUENCE) := by
      match xs, hparts.1 with
      | a :: b :: e :: rest, hx =>
        intro hc
        apply hx
        have h1 : (x :: (a :: b :: e :: rest ++ TAB_SEQUENCE ++ tail2)).take
            TAB_SEQUENCE.length = [x, a, b, e] := rfl
        have h2 : (x :: a :: b :: e :: rest).take TAB_SEQUENCE.length = [x, a, b, e] := rfl
        rw [h1] at hc
        rw [h2]
        exact hc
      | [], _ =>
        intro hc
        have h1 : (x :: (([] : List Byte) ++ TAB_SEQUENCE ++ tail2)).take
            TAB_SEQUENCE.length = [x, 45, 45, 62] := rfl
        rw [h1] at hc
        simp [TAB_SEQUENCE] at hc
      | [a], _ =>
        intro hc
        have h1 : (x :: ([a] ++ TAB_SEQUENCE ++ tail2)).take TAB_SEQUENCE.length
            = [x, a, 45, 45] := rfl
        rw [h1] at hc
        simp [TAB_SEQUENCE] at hc
      | [a, b], _ =>
        intro hc
        have h1 : (x :: ([a, b] ++ TAB_SEQUENCE ++ tail2)).take TAB_SEQUENCE.length
            = [x, a, b, 45] := rfl
        rw [h1] at hc
        simp [TAB_SEQUENCE] at hc
    rw [List.cons_append, List.cons_append, find_sequence_cons_neg hwin,
      ih tail2 hparts.2]
    rfl

theorem joinTabs_flat :
    ∀ (codes : List (List Byte)) (c0 : List Byte),
      joinTabs (c0 :: codes) = c0 ++ codes.flatMap fun cd => sep5 ++ cd := by
  intro codes
  induction codes with
  | nil => intro c0; simp [joinTabs]
  | cons c1 rest ih =>
    intro c0
    rw [show joinTabs (c0 :: c1 :: rest) = c0 ++ sep5 ++ joinTabs (c1 :: rest) from rfl,
      ih c1, List.flatMap_cons]
    simp

theorem tabIterRun_join :
    ∀ (codes : List (List Byte)) (c0 : List Byte),
      find_sequence c0 TAB_SEQUENCE = none →
      (∀ cd ∈ codes, find_sequence cd TAB_SEQUENCE = none) →
      tabIterRun (joinTabs (c0 :: codes)) = some (c0 :: codes) := by
  intro codes
  induction codes with
  | nil =>
    intro c0 h0 _
    rw [show joinTabs [c0] = c0 from rfl]
    exact tabIterRun_of_none h0
  | cons c1 rest ih =>
    intro c0 h0 hall
    have hj : joinTabs (c0 :: c1 :: rest)
        = c0 ++ TAB_SEQUENCE ++ (10 :: joinTabs (c1 :: rest)) := by
      rw [show joinTabs (c0 :: c1 :: rest) = c0 ++ sep5 ++ joinTabs (c1 :: rest) from rfl]
      simp [sep5]
    rw [hj]
    have hfs := find_sequence_sep_append c0 (10 :: joinTabs (c1 :: rest)) h0
    rw [tabIterRun_of_some hfs]
    have hlen : c0.length + 5 ≤
        (c0 ++ TAB_SEQUENCE ++ (10 :: joinTabs (c1 :: rest))).length := by
      simp only [List.length_append, List.length_cons, TAB_SEQUENCE, List.length_nil]
      omega
    rw [if_pos hlen]
    have hdrop : (c0 ++ TAB_SEQUENCE ++ (10 :: joinTabs (c1 :: rest))).drop
        (c0.length + 5) = joinTabs (c1 :: rest) := by
      rw [show c0 ++ TAB_SEQUENCE ++ (10 :: joinTabs (c1 :: rest))
          = (c0 ++ TAB_SEQUENCE ++ [10]) ++ joinTabs (c1 :: rest) from by simp]
      exact List.drop_left' (by simp [TAB_SEQUENCE])
    have htake : (c0 ++ TAB_SEQUENCE ++ (10 :: joinTabs (c1 :: rest))).take
        c0.length = c0 := by
      rw [List.append_assoc]
      exact List.take_left c0 _
    rw [hdrop, htake, ih c1 (hall c1 (by simp)) (fun cd hcd => hall cd (by simp [hcd]))]
    rfl

theorem enumFrom_flatMap_pos :
    ∀ (l : List (Option Tab)) (n : Nat), 1 ≤ n →
      ((l.enumFrom n).flatMap fun io =>
        match io.2 with
        | none => []
        | some tab => if io.1 = 0 then tab.code_data
            else TAB_SEQUENCE ++ 10 :: tab.code_data) =
      l.flatMap fun o =>
        match o with
        | none => []
        | some tab => TAB_SEQUENCE ++ 10 :: tab.code_data := by
  intro l
  induction l with
  | nil => intro n _; rfl
  | cons o rest ih =>
    intro n hn
    rw [List.enumFrom_cons, List.flatMap_cons, List.flatMap_cons, ih (n + 1) (by omega)]
    congr 1
    cases o with
    | none => rfl
    | some tb => simp [show ¬ n = 0 from by omega]

theorem replicate_none_flatMap : ∀ (m : Nat),
    ((List.replicate m (none : Option Tab)).flatMap fun o =>
      match o with
      | none => []
      | some tab => TAB_SEQUENCE ++ 10 :: tab.code_data) = [] := by
  intro m
  induction m with
  | zero => rfl
  | succ m2 ih =>
    rw [List.replicate_succ, List.flatMap_cons, ih]
    rfl

theorem codeBytes_nil_tabs : ∀ (m : Nat),
    codeBytes (List.replicate m none) = [] := by
  intro m
  cases m with
  | zero => rfl
  | succ m2 =>
    unfold codeBytes
    rw [List.replicate_succ, List.enum_cons, List.flatMap_cons,
      enumFrom_flatMap_pos _ 1 (by omega), replicate_none_flatMap]
    rfl

theorem codeBytes_cons_some (tb : Tab) (rest : List (Option Tab)) :
    codeBytes (some tb :: rest) =
      tb.code_data ++ rest.flatMap fun o =>
        match o with
        | none => []
        | some tab => TAB_SEQUENCE ++ 10 :: tab.code_data := by
  unfold codeBytes
  rw [List.enum_cons, List.flatMap_cons, enumFrom_flatMap_pos _ 1 (by omega)]
  rfl

theorem map_some_flatMap (tbs : List Tab) :
    ((tbs.map some).flatMap fun o =>
      match o with
      | none => []
      | some tab => TAB_SEQUENCE ++ 10 :: tab.code_data) =
      tbs.flatMap fun tb => TAB_SEQUENCE ++ 10 :: tb.code_data := by
  induction tbs with
  | nil => rfl
  | cons tb rest ih =>
    rw [List.map_cons, List.flatMap_cons, List.flatMap_cons, ih]

theorem flatMap_code_sep (rest : List Tab) :
    ((rest.map Tab.code_data).flatMap fun cd => sep5 ++ cd) =
      rest.flatMap fun tb => TAB_SEQUENCE ++ 10 :: tb.code_data := by
  induction rest with
  | nil => rfl
  | cons tb r ih =>
    rw [List.map_cons, List.flatMap_cons, List.flatMap_cons, ih]
    simp [sep5]

theorem codeBytes_shape (tbs : List Tab) (m : Nat) :
    codeBytes (tbs.map some ++ List.replicate m none) =
      joinTabs (tbs.map Tab.code_data) := by
  cases tbs with
  | nil =>
    rw [List.map_nil, List.nil_append, codeBytes_nil_tabs]
    rfl
  | cons tb0 rest =>
    rw [List.map_cons, List.cons_append, codeBytes_cons_some, List.flatMap_append,
      map_some_flatMap, replicate_none_flatMap, List.append_nil, List.map_cons,
      joinTabs_flat, flatMap_code_sep]

theorem codeTabsGo_cons (sp : List Byte) (rest : List (List Byte)) (ln idx : Nat)
    (tabs : List (Option Tab)) :
    codeTabsGo (sp :: rest) ln idx tabs =
      if idx < P8_MAX_CODE_EDITOR_TAB_COUNT then
        codeTabsGo rest ((if idx ≠ 0 then ln + 1 else ln) + (newlineLines sp).length)
          (idx + 1) (tabs.set idx (some ⟨ln, sp⟩))
      else none := rfl

theorem set_append_len {α : Type} (a b : List α) (v : α) :
    (a ++ b).set a.length v = a ++ b.set 0 v := by
  rw [List.set_append_right _ _ (le_refl _)]
  simp

theorem codeTabsGo_build :
    ∀ (spans : List (List Byte)) (ln : Nat) (pre : List Tab) (m : Nat),
      spans.length ≤ m → pre.length + m = 16 →
      ∃ post : List Tab, post.map Tab.code_data = spans ∧
        codeTabsGo spans ln pre.length (pre.map some ++ List.replicate m none) =
          some ((pre ++ post).map some ++ List.replicate (m - spans.length) none) := by
  intro spans
  induction spans with
  | nil =>
    intro ln pre m _ _
    exact ⟨[], rfl, by simp [codeTabsGo]⟩
  | cons sp rest ih =>
    intro ln pre m hm hpm
    match m, hm, hpm with
    | m2 + 1, hm, hpm =>
      have hidx : pre.length < P8_MAX_CODE_EDITOR_TAB_COUNT := by
        simp only [P8_MAX_CODE_EDITOR_TAB_COUNT]
        omega
      have hset : (pre.map some ++ List.replicate (m2 + 1) none).set pre.length
          (some (⟨ln, sp⟩ : Tab))
          = ((pre ++ [(⟨ln, sp⟩ : Tab)]).map some) ++ List.replicate m2 none := by
        rw [show pre.length = (pre.map some).length from by simp, set_append_len,
          List.replicate_succ, List.set_cons_zero, List.map_append, List.map_cons,
          List.map_nil, List.append_assoc, List.singleton_append]
      rw [codeTabsGo_cons, if_pos hidx, hset,
        show pre.length + 1 = (pre ++ [(⟨ln, sp⟩ : Tab)]).length from by simp]
      obtain ⟨post2, hpost2, hrec⟩ := ih
        ((if pre.length ≠ 0 then ln + 1 else ln) + (newlineLines sp).length)
        (pre ++ [(⟨ln, sp⟩ : Tab)]) m2 (by simpa using hm) (by simp; omega)
      refine ⟨⟨ln, sp⟩ :: post2, by rw [List.map_cons, hpost2], ?_⟩
      rw [hrec,
        show m2 + 1 - (sp :: rest).length = m2 - rest.length from by
          simp only [List.length_cons]
          omega,
        List.append_assoc, List.singleton_append]

theorem get_code_tabs_join (ln : Nat) (tb0 : Tab) (tbs : List Tab)
    (hlen : (tb0 :: tbs).length ≤ 16)
    (hfree : ∀ tb ∈ tb0 :: tbs, find_sequence tb.code_data TAB_SEQUENCE = none) :
    ∃ post : List Tab, post.map Tab.code_data = (tb0 :: tbs).map Tab.code_data ∧
      get_code_tabs_from_lua_section ln (joinTabs ((tb0 :: tbs).map Tab.code_data)) =
        some (post.map some ++ List.replicate (16 - (tb0 :: tbs).length) none) := by
  unfold get_code_tabs_from_lua_section
  rw [List.map_cons,
    tabIterRun_join (tbs.map Tab.code_data) tb0.code_data (hfree tb0 (by simp))
      (fun cd hcd => by
        obtain ⟨tb, htb, rfl⟩ := List.mem_map.mp hcd
        exact hfree tb (by simp [htb])),
    Option.some_bind]
  obtain ⟨post, hpost, hrun⟩ := codeTabsGo_build
    (tb0.code_data :: tbs.map Tab.code_data) (ln + 1) [] 16 (by simpa using hlen) (by simp)
  rw [show (List.replicate P8_MAX_CODE_EDITOR_TAB_COUNT (none : Option Tab))
      = ([] : List Tab).map some ++ List.replicate 16 none from by
        simp [P8_MAX_CODE_EDITOR_TAB_COUNT],
    show (0 : Nat) = ([] : List Tab).length from rfl, hrun]
  refine ⟨post, by rw [hpost], ?_⟩
  rw [List.nil_append]
  congr 2
  simp

/-! ### reparsing the serialized header and body -/

theorem split_from_header {h : List Byte} (body : List Byte)
    (hok : headerOk h = true) :
    split_from (h ++ body) = Except.ok (some (h, body)) := by
  have hok2 := hok
  simp only [headerOk, Bool.and_eq_true, beq_iff_eq] at hok2
  obtain ⟨⟨hpre, hfi⟩, hv⟩ := hok2
  obtain ⟨v, rfl⟩ := List.isPrefixOf_iff_prefix.mp hpre
  rw [show (CARTRIDGE_MARKER ++ v).drop CARTRIDGE_MARKER.length = v
      from List.drop_left _ _] at hfi hv
  have hvne : v ≠ [] := by
    intro hcontra
    rw [hcontra] at hfi
    simp [find_index_of_element_const] at hfi
  have hvl : v.length - 1 + 1 = v.length := by
    cases v with
    | nil => exact absurd rfl hvne
    | cons a r => simp
  have hpre2 : CARTRIDGE_MARKER.isPrefixOf ((CARTRIDGE_MARKER ++ v) ++ body) = true := by
    apply List.isPrefixOf_iff_prefix.mpr
    exact ⟨v ++ body, by simp⟩
  have hnl1 := nlFirst_of_marker_prefix hpre2
  rw [show ((CARTRIDGE_MARKER ++ v) ++ body).drop CARTRIDGE_MARKER.length = v ++ body
      from by rw [List.append_assoc]; exact List.drop_left _ _] at hnl1
  have hfi2 : find_index_of_element_const (v ++ body) 10 = some (v.length - 1) :=
    find_index_append hfi
  have hsplit2 : splitln_const (v ++ body) = some (v, body) := by
    simp only [splitln_const, hfi2]
    rw [hvl, if_pos (by simp), List.take_left, List.drop_left]
  have hnl2 : nlFirst (v ++ body) = some (v, some body) := by
    unfold nlFirst
    rw [hsplit2]
  simp only [split_from, hnl1, Option.some_bind, hnl2, if_pos rfl, hv, if_true]
  rw [show ((CARTRIDGE_MARKER ++ v) ++ body).take (CARTRIDGE_MARKER.length + v.length)
      = CARTRIDGE_MARKER ++ v from List.take_left' (by simp),
    show ((CARTRIDGE_MARKER ++ v) ++ body).drop (CARTRIDGE_MARKER.length + v.length)
      = body from List.drop_left' (by simp)]

theorem parse_chunks (h : List Byte) (chunks : List (SectionType × List Byte))
    (hok : headerOk h = true) (hck : chunkListOk chunks = true) :
    from_cart_source (h ++ chunks.flatMap fun td => with_data td.1 td.2) =
      match builderFromSections ((chunkSections chunks 3).reverse) with
      | none => Except.error ()
      | some b => Except.ok (build_with b h) := by
  have hterm : ∀ td ∈ chunks, nlTerminated td.2 = true := by
    intro td htd
    have := List.all_eq_true.mp hck td htd
    simp only [Bool.and_eq_true] at this
    exact this.2
  have hclean : ∀ td ∈ chunks, cleanLines td.2 = true := by
    intro td htd
    have := List.all_eq_true.mp hck td htd
    simp only [Bool.and_eq_true] at this
    exact this.1
  have hsplit := split_from_header (chunks.flatMap fun td => with_data td.1 td.2) hok
  have hdelims := delims_of_chunks chunks hterm hclean
  have hsort := sortDelims_chunkDelims chunks 3 0
  have hranges : fwdRangesOk ((chunks.flatMap fun td => with_data td.1 td.2).length)
      (sortDelims (chunkDelims chunks 3 0)) = true := by
    rw [hsort]
    exact chunkRangesOk0 chunks 3
  have hcg : claimGo (chunks.flatMap fun td => with_data td.1 td.2)
      (chunkDelims chunks 3 0) = chunkSections chunks 3 := by
    simpa using claimGo_chunks chunks [] 3
  have hsections : get_sections (chunks.flatMap fun td => with_data td.1 td.2)
      (chunkDelims chunks 3 0) = (chunkSections chunks 3).reverse := by
    rw [get_sections_valid_eq hranges]
    unfold claimSections
    rw [hsort, hcg]
  simp only [from_cart_source, hsplit, hdelims, hsections]

theorem tabCodes_shape (tbs : List Tab) (m : Nat) :
    tabCodes (tbs.map some ++ List.replicate m none) =
      (tbs.map Tab.code_data).map some ++ List.replicate m none := by
  unfold tabCodes
  rw [List.map_append, List.map_map, List.map_map, List.map_replicate]
  rfl

/-- Claim C1 as amended: serializing and reparsing reconstructs a
structurally equal cartridge for every cartridge whose header is a
well-formed two-line header, whose occupied code-tab slots form a prefix of
the 16-slot array with separator-free contents, whose emitted section
chunks have no marker-prefixed line and are newline-terminated, and whose
code tabs are not exactly a single empty slot.  Being parse-produced does
not guarantee the last two conditions, and each is forced by a
parse-produced failure exhibited in the counterexample: an empty `__lua__`
section gives a lone empty tab whose code section is dropped on
reserialization; a final section with no trailing newline gets the next
emitted marker glued onto its last line, dropping that section; and a code
body whose separator is not followed by a newline reserializes into code
with a marker-prefixed line, splitting the code section on reparse. -/
theorem claim_c1_amended (c : CartData) (tabs : List Tab)
    (hhd : headerOk c.header = true)
    (hshape : c.code_tabs = tabs.map some ++ List.replicate (16 - tabs.length) none)
    (hlen : tabs.length ≤ 16)
    (hfree : ∀ tb ∈ tabs, find_sequence tb.code_data TAB_SEQUENCE = none)
    (hck : chunkListOk (emitChunks c) = true)
    (hdeg : tabsNonDegenerate c = true) :
    ∃ c2, from_cart_source (into_cart_source c) = Except.ok (some c2) ∧
      structEq c c2 := by
  have hcbj : codeBytes c.code_tabs = joinTabs (tabs.map Tab.code_data) := by
    rw [hshape]
    exact codeBytes_shape tabs _
  have htc : tabCodes c.code_tabs
      = (tabs.map Tab.code_data).map some ++ List.replicate (16 - tabs.length) none := by
    rw [hshape]
    exact tabCodes_shape tabs _
  have hluaData : ∀ s ∈ (chunkSections (emitChunks c) 3).reverse,
      s.type = SectionType.Lua → s.data = codeBytes c.code_tabs ∧
        ¬ codeBytes c.code_tabs = [] := by
    intro s hs hst
    have hmem := chunkSections_mem (emitChunks c) 3 s (List.mem_reverse.mp hs)
    rw [hst] at hmem
    have hm2 := emit_lua_mem hmem
    exact ⟨hm2.2, hm2.1⟩
  have hget : ∀ ln2 : Nat, ¬ codeBytes c.code_tabs = [] →
      ∃ post : List Tab, post.map Tab.code_data = tabs.map Tab.code_data ∧
        get_code_tabs_from_lua_section ln2 (codeBytes c.code_tabs) =
          some (post.map some ++ List.replicate (16 - tabs.length) none) := by
    intro ln2 hne
    match tabs, hfree, hlen, hcbj with
    | [], _, _, hcbj => exact absurd (by rw [hcbj]; rfl) hne
    | tb0 :: tbs2, hfree, hlen, hcbj =>
      rw [hcbj]
      exact get_code_tabs_join ln2 tb0 tbs2 hlen hfree
  have hfoldArg : ∀ s ∈ (chunkSections (emitChunks c) 3).reverse,
      s.type = SectionType.Lua →
      (get_code_tabs_from_lua_section s.line_number s.data).isSome := by
    intro s hs hst
    obtain ⟨hdata, hne⟩ := hluaData s hs hst
    obtain ⟨post, -, hgt⟩ := hget s.line_number hne
    rw [hdata, hgt]
    rfl
  obtain ⟨b, hb⟩ := Option.isSome_iff_exists.mp
    (builderFold_isSome ((chunkSections (emitChunks c) 3).reverse) {} hfoldArg)
  have hbs : builderFromSections ((chunkSections (emitChunks c) 3).reverse) = some b := hb
  have hslot : ∀ t, ¬ t = SectionType.Lua →
      (slotOf t b).map Prod.snd =
        ((emitChunks c).find? fun td => td.1 == t).map Prod.snd := by
    intro t ht
    rw [builderFold_slot ((chunkSections (emitChunks c) 3).reverse) {} b hb t ht,
      show slotOf t ({} : CartDataBuilder) = none from by cases t <;> rfl,
      Option.or_none, lastSec_reverse, Option.map_map,
      ← chunkSections_filter_find t (emitChunks c) 3]
    cases ((chunkSections (emitChunks c) 3).filter fun s => s.type == t).head? <;> rfl
  have hbg : b.gfx.map Prod.snd = some c.gfx.2 := by
    have hs := hslot SectionType.Gfx (by decide)
    rw [emit_find_gfx] at hs
    simpa [slotOf] using hs
  obtain ⟨p, hp, hp2⟩ := Option.map_eq_some'.mp hbg
  have hlabel : secData b.label = secData c.label := by
    have hs := hslot SectionType.Label (by decide)
    rw [emit_find_label, show slotOf SectionType.Label b = b.label from rfl] at hs
    unfold secData
    rw [hs]
    cases c.label <;> rfl
  have hgff : secData b.gff = secData c.gff := by
    have hs := hslot SectionType.Gff (by decide)
    rw [emit_find_gff, show slotOf SectionType.Gff b = b.gff from rfl] at hs
    unfold secData
    rw [hs]
    cases c.gff <;> rfl
  have hmap2 : secData b.map = secData c.map := by
    have hs := hslot SectionType.Map (by decide)
    rw [emit_find_map, show slotOf SectionType.Map b = b.map from rfl] at hs
    unfold secData
    rw [hs]
    cases c.map <;> rfl
  have hsfx : secData b.sfx = secData c.sfx := by
    have hs := hslot SectionType.Sfx (by decide)
    rw [emit_find_sfx, show slotOf SectionType.Sfx b = b.sfx from rfl] at hs
    unfold secData
    rw [hs]
    cases c.sfx <;> rfl
  have hmusic : secData b.music = secData c.music := by
    have hs := hslot SectionType.Music (by decide)
    rw [emit_find_music, show slotOf SectionType.Music b = b.music from rfl] at hs
    unfold secData
    rw [hs]
    cases c.music <;> rfl
  have htabs2 : tabCodes c.code_tabs = tabCodes b.code_tabs := by
    by_cases hcb : codeBytes c.code_tabs = []
    · have htnil : tabs = [] := by
        match tabs, hshape with
        | [], _ => rfl
        | tb0 :: tbs2, hshape =>
          exfalso
          have hall : c.code_tabs.all (fun o => o.isNone) = true := by
            have hd2 := hdeg
            unfold tabsNonDegenerate at hd2
            rw [hcb] at hd2
            simpa using hd2
          rw [hshape] at hall
          simp at hall
      have hnolua : (((chunkSections (emitChunks c) 3).reverse.filter
          fun s => s.type == SectionType.Lua).getLast?) = none := by
        rw [List.getLast?_eq_none_iff, List.filter_eq_nil_iff]
        intro s hs
        simp only [beq_iff_eq]
        intro hst
        exact (hluaData s hs hst).2 hcb
      rw [(builderFold_tabs _ {} b hb).1 hnolua, htc, htnil]
      rfl
    · obtain ⟨rest0, hemit⟩ : ∃ r, emitChunks c
          = (SectionType.Lua, codeBytes c.code_tabs) :: r :=
        ⟨_, by unfold emitChunks; rw [if_neg hcb]; rfl⟩
      have hlua2 : (((chunkSections (emitChunks c) 3).reverse.filter
          fun s => s.type == SectionType.Lua).getLast?) =
          some ⟨SectionType.Lua, 3, codeBytes c.code_tabs⟩ := by
        rw [List.filter_reverse, List.getLast?_reverse, hemit, chunkSections_cons,
          List.filter_cons_of_pos (by simp)]
        rfl
      obtain ⟨post, hpost, hgt⟩ := hget 3 hcb
      have hbt : b.code_tabs = post.map some ++ List.replicate (16 - tabs.length) none := by
        have h3 := (builderFold_tabs _ {} b hb).2
          ⟨SectionType.Lua, 3, codeBytes c.code_tabs⟩ hlua2
        have h4 : get_code_tabs_from_lua_section 3 (codeBytes c.code_tabs)
            = some b.code_tabs := h3
        rw [hgt] at h4
        simpa using h4.symm
      rw [htc, hbt, tabCodes_shape, hpost]
  unfold into_cart_source
  rw [parse_chunks c.header (emitChunks c) hhd hck]
  simp only [hbs]
  refine ⟨⟨c.header, b.label, b.code_tabs, p, b.gff, b.map, b.sfx, b.music⟩, ?_, ?_⟩
  · unfold build_with
    rw [hp]
    rfl
  · exact ⟨rfl, htabs2, hp2.symm, hlabel.symm, hgff.symm, hmap2.symm, hsfx.symm,
      hmusic.symm⟩

/-- Counterexample to claim C1 as stated: three parse-produced cartridges
whose round trip is not structurally equal.  The empty-`__lua__` source
loses its code tab (the serializer emits no code section); the
label-then-unterminated-gfx source loses the label (the gfx chunk is
reserialized without a trailing newline, so the `__label__` marker is glued
onto its last line); the source whose code has a separator not followed by
a newline gets a marker-prefixed line inside its reserialized code,
splitting the code section on reparse.  The last two cartridges are
tab-nondegenerate but violate the emitted-chunk conditions (`chunkListOk`),
so those conditions of the amended theorem are genuinely needed. -/
theorem claim_c1_counterexample :
    ((parseOk c1cex).isSome = true ∧
      ((parseOk c1cex).bind fun c => (parseOk (into_cart_source c)).map fun c2 =>
        decide (structEq c c2)) = some false) ∧
    (((parseOk c1cex2).map fun c =>
        tabsNonDegenerate c && !chunkListOk (emitChunks c)) = some true ∧
      ((parseOk c1cex2).bind fun c => (parseOk (into_cart_source c)).map fun c2 =>
        decide (structEq c c2)) = some false) ∧
    (((parseOk c1cex3).map fun c =>
        tabsNonDegenerate c && !chunkListOk (emitChunks c)) = some true ∧
      ((parseOk c1cex3).bind fun c => (parseOk (into_cart_source c)).map fun c2 =>
        decide (structEq c c2)) = some false) := by decide

/-- Witness for the amended C1 at the spec's concrete two-tab cartridge. -/
theorem claim_c1_witness :
    ∃ c2, from_cart_source (into_cart_source c1cart) = Except.ok (some c2) ∧
      structEq c1cart c2 :=
  claim_c1_amended c1cart
    [⟨4, [112, 114, 105, 110, 116, 40, 34, 97, 34, 41, 10]⟩,
     ⟨6, [112, 114, 105, 110, 116, 40, 34, 98, 34, 41, 10]⟩]
    (by decide) (by decide) (by decide) (by decide) (by decide) (by decide)
